import Mathlib

/-!
Verification of the hex-chess rules engine (shared/hexGrid.js, shared/rules.js,
Game.js) against its natural-language specification.  All definitions below are
shallow embeddings translated statement-by-statement from the JavaScript
source; theorems settle the frozen claims about the engine.
-/

set_option maxRecDepth 4096

/-! ## Hex grid (shared/hexGrid.js) -/

/-- Cube coordinate `[x, y, z]` (with `x + y + z = 0` for every cell the code
builds). -/
structure Cube where
  x : Int
  y : Int
  z : Int
deriving DecidableEq, Repr

/-- Axial coordinate `{q, r}` of a flat-topped hex cell. -/
structure Axial where
  q : Int
  r : Int
deriving DecidableEq, Repr

/-- Six cube orthogonal directions (flat-top hexes), source `CUBE_DIRS`:
0: N, 1: NW, 2: SW, 3: S, 4: SE, 5: NE. -/
def CUBE_DIRS : List Cube :=
  [⟨0, 1, -1⟩, ⟨-1, 1, 0⟩, ⟨-1, 0, 1⟩, ⟨0, -1, 1⟩, ⟨1, -1, 0⟩, ⟨1, 0, -1⟩]

/-- Six axial orthogonal directions (flat-top hexes), source `AXIAL_DIRS`:
0: N, 1: NW, 2: SW, 3: S, 4: SE, 5: NE. -/
def AXIAL_DIRS : List (Int × Int) :=
  [(0, -1), (-1, 0), (-1, 1), (0, 1), (1, 0), (1, -1)]

/-- Vector addition on cube coordinates (source `add`). -/
def cubeAdd (a b : Cube) : Cube := ⟨a.x + b.x, a.y + b.y, a.z + b.z⟩

/-- Scalar multiple of a cube coordinate (source `mul`). -/
def cubeMul (a : Cube) (k : Int) : Cube := ⟨a.x * k, a.y * k, a.z * k⟩

/-- Cube to axial conversion, dropping `y` (source `toAxial`). -/
def toAxial (c : Cube) : Axial := ⟨c.x, c.z⟩

/-- Hexagonal grid of radius `R` in cube coordinates (source `hexagonCube`):
for x in [-R, R], y in [max(-R, -x-R), min(R, -x+R)], z = -x-y. -/
def hexagonCube (R : Nat) : List Cube :=
  let Ri : Int := R
  (List.range (2 * R + 1)).flatMap fun xo =>
    let x : Int := xo - Ri
    let yMin : Int := max (-Ri) (-x - Ri)
    let yMax : Int := min Ri (-x + Ri)
    (List.range ((yMax - yMin + 1).toNat)).map fun yo =>
      let y : Int := yMin + yo
      ⟨x, y, -x - y⟩

/-- Append `c` unless already present: models `Map.set` on a key-valued map
whose values equal their keys (insertion order preserved, duplicate set is a
no-op on contents). -/
def dedupeSet (acc : List Cube) (c : Cube) : List Cube :=
  if c ∈ acc then acc else acc ++ [c]

/-- Comparator used by the source's `axial.sort((a, b) => a.q - b.q || b.r - a.r)`:
q ascending, then r descending. -/
def axialLe (a b : Axial) : Bool :=
  if a.q = b.q then b.r ≤ a.r else a.q < b.q

/-- Insertion sort by `axialLe`; all keys are distinct so any correct sort
produces the same list the JS engine's sort does. -/
def axialInsert (a : Axial) : List Axial → List Axial
  | [] => [a]
  | b :: l => if axialLe a b then a :: b :: l else b :: axialInsert a l

def axialSort : List Axial → List Axial
  | [] => []
  | a :: l => axialInsert a (axialSort l)

/-- Star-shaped grid of the given radius (source `createHexagram`): the radius-R
hexagon plus six corner triangles, deduplicated, converted to axial and sorted
by (q ascending, r descending). -/
def createHexagram (R : Nat) : List Axial :=
  let base := hexagonCube R
  let Ri : Int := R
  let withStar :=
    (List.range 6).foldl (fun out s =>
      let dirOut := CUBE_DIRS.getD s ⟨0, 0, 0⟩
      let dirIn := cubeMul dirOut (-1)
      let dirSide := CUBE_DIRS.getD ((s + 1) % 6) ⟨0, 0, 0⟩
      let corner := cubeMul dirOut Ri
      (List.range R).foldl (fun out (steps : Nat) =>
        let hexSide := cubeAdd corner (cubeMul dirSide ((steps : Int) + 1))
        let out :=
          (List.range steps).foldl (fun out (row : Nat) =>
            dedupeSet out (cubeAdd hexSide (cubeMul dirIn ((row : Int) + 1)))) out
        dedupeSet out hexSide) out) base
  axialSort (withStar.map toAxial)

/-- The 37-cell board grid (source `GRID = createHexagram(2)`). -/
def GRID : List Axial := createHexagram 2

/-- Axial coordinates to board index (source `getIndexOf` via the `IDX_BY_QR`
map).  The map is built by inserting `(key GRID[i], i)` for i ascending, a
later binding overwriting an earlier one, so the lookup returns the last
matching index (the keys are in fact distinct). -/
def getIndexOf (q r : Int) : Option Nat :=
  (List.range GRID.length).foldl
    (fun acc i => if GRID.getD i ⟨0, 0⟩ = ⟨q, r⟩ then some i else acc) none

/-! ## Piece catalog (shared/rules.js) -/

inductive Color where
  | W
  | B
deriving DecidableEq, Repr

inductive Kind where
  | pawn
  | king
  | knight
  | rook
  | bishop
  | queen
  | charger
  | dragon
  | guardian
  | fool
  | moon
deriving DecidableEq, Repr

/-- A piece code such as `WK`: the `PIECES` table maps each code to exactly one
(color, kind) pair and every combination occurs, so a code is the pair. -/
structure PieceCode where
  color : Color
  kind : Kind
deriving DecidableEq, Repr

def WP : PieceCode := ⟨.W, .pawn⟩
def BP : PieceCode := ⟨.B, .pawn⟩
def WK : PieceCode := ⟨.W, .king⟩
def BK : PieceCode := ⟨.B, .king⟩
def WN : PieceCode := ⟨.W, .knight⟩
def BN : PieceCode := ⟨.B, .knight⟩
def WR : PieceCode := ⟨.W, .rook⟩
def BR : PieceCode := ⟨.B, .rook⟩
def WB : PieceCode := ⟨.W, .bishop⟩
def BB : PieceCode := ⟨.B, .bishop⟩
def WQ : PieceCode := ⟨.W, .queen⟩
def BQ : PieceCode := ⟨.B, .queen⟩
def WC : PieceCode := ⟨.W, .charger⟩
def BC : PieceCode := ⟨.B, .charger⟩
def WD : PieceCode := ⟨.W, .dragon⟩
def BD : PieceCode := ⟨.B, .dragon⟩
def WG : PieceCode := ⟨.W, .guardian⟩
def BG : PieceCode := ⟨.B, .guardian⟩

/-- Source `colorOf` (total on the codes of the table). -/
def colorOf (code : PieceCode) : Color := code.color

/-- Source `kindOf`. -/
def kindOf (code : PieceCode) : Kind := code.kind

/-- Source `isEnemy(a, b) = a && b && PIECES[a].color !== PIECES[b].color`:
`none` models a missing/empty argument, which is falsy in JS. -/
def isEnemy (a b : Option PieceCode) : Bool :=
  match a, b with
  | some x, some y => colorOf x ≠ colorOf y
  | _, _ => false

/-- A board: 37 cells, each `none` (empty) or a piece code (source `Cells`). -/
abbrev Cells := List (Option PieceCode)

/-- Read a cell; out-of-range reads give `none`, matching the undefined (falsy)
value a JS array read out of range yields. -/
def cellAt (cells : Cells) (i : Nat) : Option PieceCode := cells.getD i none

/-- Back-rank cell indices for placement/promotion by color (source `BACK_RANK`). -/
def BACK_RANK (c : Color) : List Nat :=
  match c with
  | .W => [3, 10, 16, 21, 27]
  | .B => [9, 15, 20, 26, 33]

/-- Pawn starting indices by color (source `PAWN_START`). -/
def PAWN_START (c : Color) : List Nat :=
  match c with
  | .W => [4, 11, 17, 22, 28]
  | .B => [8, 14, 19, 25, 32]

/-- Pawn capture directions by color (source `PAWN_CAPTURE_DIRS`):
White captures NW(1) and NE(5); Black captures SW(2) and SE(4). -/
def PAWN_CAPTURE_DIRS (c : Color) : List Nat :=
  match c with
  | .W => [1, 5]
  | .B => [2, 4]

/-- Setup pool contents in fixed declared order (source `SETUP_POOL`). -/
def SETUP_POOL (c : Color) : List PieceCode :=
  match c with
  | .W => [WK, WN, WB, WQ, WR, WC, WD, WG]
  | .B => [BK, BN, BB, BQ, BR, BC, BD, BG]

/-- The king code of a color (source expression `color + 'K'`). -/
def kingCodeOf (c : Color) : PieceCode := ⟨c, .king⟩

/-- Source `isBackRank`. -/
def isBackRank (c : Color) (index : Nat) : Bool := (BACK_RANK c).contains index

/-- Source `isPawnStart`. -/
def isPawnStart (c : Color) (index : Nat) : Bool := (PAWN_START c).contains index

/-! ## Move logic (shared/rules.js) -/

/-- Step from a cell by axial direction and number of steps (source
`stepInDirection`); `none` when the destination is off the board.  The source
reads `GRID[from]` unconditionally; every caller passes an on-board index, and
an out-of-range index is mapped to `none` here. -/
def stepInDirection (fromIdx direction : Nat) (steps : Nat) : Option Nat :=
  match GRID.get? fromIdx, AXIAL_DIRS.get? direction with
  | some c, some (dq, dr) =>
      getIndexOf (c.q + dq * (steps : Int)) (c.r + dr * (steps : Int))
  | _, _ => none

/-- Body of the source `slide` while-loop, with explicit fuel.  The walk visits
pairwise-distinct cells of the 37-cell board (each iteration adds the same
nonzero direction vector), so 37 iterations always suffice. -/
def slideGo (cells : Cells) (pieceCode : Option PieceCode) (current direction : Nat) :
    Nat → List Nat
  | 0 => []
  | fuel + 1 =>
    match stepInDirection current direction 1 with
    | none => []
    | some next =>
      match cellAt cells next with
      | none => next :: slideGo cells pieceCode next direction fuel
      | some targetCode =>
        if isEnemy pieceCode (some targetCode) then [next] else []

/-- Slide/ray moves in a single direction until blocked (source `slide`):
continues through empty squares, includes the first enemy square, then stops. -/
def slide (cells : Cells) (fromIdx direction : Nat) : List Nat :=
  slideGo cells (cellAt cells fromIdx) fromIdx direction 37

/-- Pawn moves (source `pawnMoves`): one step forward if empty, two from the
starting rank if both squares are empty, diagonal captures. -/
def pawnMoves (cells : Cells) (index : Nat) : List Nat :=
  match cellAt cells index with
  | none => []
  | some pieceCode =>
    let myColor := colorOf pieceCode
    let forward := if myColor = .W then 0 else 3
    let oneStep := stepInDirection index forward 1
    let twoSteps := stepInDirection index forward 2
    let l1 : List Nat :=
      match oneStep with
      | some o => if cellAt cells o = none then [o] else []
      | none => []
    let l2 : List Nat :=
      match oneStep, twoSteps with
      | some o, some t =>
        if isPawnStart myColor index ∧ cellAt cells o = none ∧ cellAt cells t = none
        then [t] else []
      | _, _ => []
    let l3 : List Nat :=
      (PAWN_CAPTURE_DIRS myColor).flatMap fun direction =>
        match stepInDirection index direction 1 with
        | some target =>
          if isEnemy (some pieceCode) (cellAt cells target) then [target] else []
        | none => []
    l1 ++ l2 ++ l3

/-- King moves (source `kingMoves`): one step in any orthogonal direction onto
an empty or enemy-occupied cell. -/
def kingMoves (cells : Cells) (index : Nat) : List Nat :=
  match cellAt cells index with
  | none => []
  | some pieceCode =>
    (List.range 6).flatMap fun direction =>
      match stepInDirection index direction 1 with
      | some target =>
        if cellAt cells target = none ∨ isEnemy (some pieceCode) (cellAt cells target)
        then [target] else []
      | none => []

/-- Knight moves (source `knightMoves`): two steps in a direction then one step
in an adjacent direction; landing cells collected through a JS `Set`
(insertion-ordered, deduplicating). -/
def knightMoves (cells : Cells) (index : Nat) : List Nat :=
  match cellAt cells index, GRID.get? index with
  | some pieceCode, some c =>
    (List.range 6).foldl (fun acc direction =>
      let d := AXIAL_DIRS.getD direction (0, 0)
      let dl := AXIAL_DIRS.getD ((direction + 5) % 6) (0, 0)
      let dr := AXIAL_DIRS.getD ((direction + 1) % 6) (0, 0)
      let left := getIndexOf (c.q + 2 * d.1 + dl.1) (c.r + 2 * d.2 + dl.2)
      let right := getIndexOf (c.q + 2 * d.1 + dr.1) (c.r + 2 * d.2 + dr.2)
      [left, right].foldl (fun acc t =>
        match t with
        | some target =>
          if (cellAt cells target = none ∨ isEnemy (some pieceCode) (cellAt cells target))
              ∧ target ∉ acc
          then acc ++ [target] else acc
        | none => acc) acc) []
  | _, _ => []

/-- Rook moves (source `rookMoves`): slides along the vertical directions 0, 3. -/
def rookMoves (cells : Cells) (index : Nat) : List Nat :=
  match cellAt cells index with
  | none => []
  | some _ => [0, 3].flatMap fun d => slide cells index d

/-- Bishop moves (source `bishopMoves`): slides along directions 1, 2, 4, 5. -/
def bishopMoves (cells : Cells) (index : Nat) : List Nat :=
  match cellAt cells index with
  | none => []
  | some _ => [1, 2, 4, 5].flatMap fun d => slide cells index d

/-- Queen moves (source `queenMoves`): slides along all six directions. -/
def queenMoves (cells : Cells) (index : Nat) : List Nat :=
  match cellAt cells index with
  | none => []
  | some _ => [0, 1, 2, 3, 4, 5].flatMap fun d => slide cells index d

/-- Charger moves (source `chargerMoves`): slides along the three forward
directions — White 1, 0, 5; Black 2, 3, 4. -/
def chargerMoves (cells : Cells) (index : Nat) : List Nat :=
  match cellAt cells index with
  | none => []
  | some pieceCode =>
    (if colorOf pieceCode = .W then [1, 0, 5] else [2, 3, 4]).flatMap fun d =>
      slide cells index d

/-- Dragon moves (source `dragonMoves`): one or two steps in any orthogonal
direction onto an empty or enemy cell. -/
def dragonMoves (cells : Cells) (index : Nat) : List Nat :=
  match cellAt cells index with
  | none => []
  | some pieceCode =>
    (List.range 6).flatMap fun direction =>
      [1, 2].flatMap fun i =>
        match stepInDirection index direction i with
        | some step =>
          if cellAt cells step = none ∨ isEnemy (some pieceCode) (cellAt cells step)
          then [step] else []
        | none => []

/-- Source `dragonCollateral`: if some direction reaches `to` in exactly two
steps, the index of the intermediate cell of the first such direction. -/
def dragonCollateral (fromIdx toIdx : Nat) : Option Nat :=
  ((List.range 6).find? fun direction =>
      stepInDirection fromIdx direction 2 = some toIdx).bind
    fun direction => stepInDirection fromIdx direction 1

/-- Guardian moves (source `guardianMoves`): one step in any direction, onto any
cell (swap with a friendly piece happens at application time). -/
def guardianMoves (cells : Cells) (index : Nat) : List Nat :=
  match cellAt cells index with
  | none => []
  | some _ =>
    (List.range 6).flatMap fun direction =>
      match stepInDirection index direction 1 with
      | some target => [target]
      | none => []

/-- Dispatcher (source `legalMovesFromCells`). -/
def legalMovesFromCells (cells : Cells) (index : Nat) : List Nat :=
  match cellAt cells index with
  | none => []
  | some pieceCode =>
    match kindOf pieceCode with
    | .pawn => pawnMoves cells index
    | .king => kingMoves cells index
    | .knight => knightMoves cells index
    | .rook => rookMoves cells index
    | .bishop => bishopMoves cells index
    | .queen => queenMoves cells index
    | .charger => chargerMoves cells index
    | .dragon => dragonMoves cells index
    | .guardian => guardianMoves cells index
    | _ => []

/-! ## AI helpers of shared/rules.js -/

/-- Source `nextStateCells`: next-position cells after moving one piece,
including the dragon collateral and guardian swap side effects.  The JS guard
`if (collateralIndex)` is falsy both for `null` and for the number `0`, which
the inner `if` reproduces. -/
def nextStateCells (cells : Cells) (fromIdx toIdx : Nat) : Cells :=
  let movedPieceCode := cellAt cells fromIdx
  let targetCode := cellAt cells toIdx
  let nextCells :=
    if (movedPieceCode.map kindOf) = some .dragon ∧ targetCode ≠ none then
      match dragonCollateral fromIdx toIdx with
      | some collateralIndex =>
        if collateralIndex ≠ 0 then cells.set collateralIndex none else cells
      | none => cells
    else cells
  let nextCells := (nextCells.set toIdx movedPieceCode).set fromIdx none
  if (movedPieceCode.map kindOf) = some .guardian ∧ targetCode ≠ none
      ∧ ¬ isEnemy movedPieceCode targetCode then
    nextCells.set fromIdx targetCode
  else nextCells

/-- Source `getKingIndex`: index of the king of `color`, `none` when captured
(the source returns -1). -/
def getKingIndex (cells : Cells) (c : Color) : Option Nat :=
  (List.range cells.length).find? fun i => cellAt cells i = some (kingCodeOf c)

/-- Inner helper of source `isKingAttacked`: walk each direction in `dirs` from
the king's square to the first occupant; attacked iff that occupant is an enemy
whose kind is in `kinds`.  Fueled like `slide`. -/
def slideAttackGo (cells : Cells) (kingCode : PieceCode) (kinds : List Kind)
    (current direction : Nat) : Nat → Bool
  | 0 => false
  | fuel + 1 =>
    match stepInDirection current direction 1 with
    | none => false
    | some next =>
      match cellAt cells next with
      | none => slideAttackGo cells kingCode kinds next direction fuel
      | some pieceCode =>
        isEnemy (some kingCode) (some pieceCode) && kinds.contains (kindOf pieceCode)

def isSlideAttacked (cells : Cells) (kingCode : PieceCode) (kingIndex : Nat)
    (dirs : List Nat) (kinds : List Kind) : Bool :=
  dirs.any fun direction => slideAttackGo cells kingCode kinds kingIndex direction 37

/-- Source `isKingAttacked`: pawn geometry, knight jumps, sliding rays
(directions [2,5] checked for rook/queen and [0,1,3,4] for bishop/queen,
exactly as the source has them), charger rays, and one/two-step contact from
king/dragon/guardian kinds.  A missing king counts as attacked. -/
def isKingAttacked (cells : Cells) (kingColor : Color) : Bool :=
  match getKingIndex cells kingColor with
  | none => true
  | some kingIndex =>
    let kingCode := kingCodeOf kingColor
    let pawnAttack :=
      (PAWN_CAPTURE_DIRS kingColor).any fun direction =>
        match stepInDirection kingIndex direction 1 with
        | some source =>
          match cellAt cells source with
          | some pieceCode =>
            isEnemy (some kingCode) (some pieceCode) && kindOf pieceCode = .pawn
          | none => false
        | none => false
    let knightAttack :=
      (knightMoves cells kingIndex).any fun source =>
        match cellAt cells source with
        | some pieceCode =>
          isEnemy (some kingCode) (some pieceCode) && kindOf pieceCode = .knight
        | none => false
    let rookSlide := isSlideAttacked cells kingCode kingIndex [2, 5] [.rook, .queen]
    let bishopSlide := isSlideAttacked cells kingCode kingIndex [0, 1, 3, 4] [.bishop, .queen]
    let chargerDirs := if kingColor = .W then [1, 0, 5] else [2, 3, 4]
    let chargerSlide := isSlideAttacked cells kingCode kingIndex chargerDirs [.charger]
    let contactKinds : List Kind := [.king, .dragon, .guardian]
    let contactAttack :=
      (List.range 6).any fun direction =>
        let oneHit :=
          match stepInDirection kingIndex direction 1 with
          | some oneStep =>
            match cellAt cells oneStep with
            | some oneStepCode =>
              isEnemy (some kingCode) (some oneStepCode)
                && contactKinds.contains (kindOf oneStepCode)
            | none => false
          | none => false
        let twoHit :=
          match stepInDirection kingIndex direction 1 with
          | none => false
          | some _ =>
            match stepInDirection kingIndex direction 2 with
            | some twoSteps =>
              match cellAt cells twoSteps with
              | some twoStepCode =>
                isEnemy (some kingCode) (some twoStepCode)
                  && kindOf twoStepCode = .dragon
              | none => false
            | none => false
        oneHit || twoHit
    pawnAttack || knightAttack || rookSlide || bishopSlide || chargerSlide || contactAttack

/-! ## Game state machine (Game.js) -/

/-- One `movesLog` record: at most one formatted move string per color. -/
structure LogEntry where
  w : Option String
  b : Option String
deriving DecidableEq, Repr

def LogEntry.get (e : LogEntry) (c : Color) : Option String :=
  match c with
  | .W => e.w
  | .B => e.b

def LogEntry.put (e : LogEntry) (c : Color) (s : String) : LogEntry :=
  match c with
  | .W => ⟨some s, e.b⟩
  | .B => ⟨e.w, some s⟩

/-- The authoritative game state `G` (source `setup()` shape).  The `phase`
field is written once by `setup()` and never updated; the live phase is the
framework-managed `ctx.phase`. -/
structure GameState where
  cells : Cells
  setupPoolW : List PieceCode
  setupPoolB : List PieceCode
  movesLog : List LogEntry
deriving DecidableEq, Repr

def GameState.pool (G : GameState) (c : Color) : List PieceCode :=
  match c with
  | .W => G.setupPoolW
  | .B => G.setupPoolB

def GameState.setPool (G : GameState) (c : Color) (p : List PieceCode) : GameState :=
  match c with
  | .W => ⟨G.cells, p, G.setupPoolB, G.movesLog⟩
  | .B => ⟨G.cells, G.setupPoolW, p, G.movesLog⟩

def GameState.setCells (G : GameState) (cells : Cells) : GameState :=
  ⟨cells, G.setupPoolW, G.setupPoolB, G.movesLog⟩

inductive Phase where
  | setup
  | play
deriving DecidableEq, Repr

/-- The boardgame.io turn context: current player `'0'` or `'1'` plus phase. -/
structure Ctx where
  currentPlayerIsZero : Bool
  phase : Phase
deriving DecidableEq, Repr

/-- Source `colorToMove`: player 0 is White, player 1 is Black. -/
def colorToMove (ctx : Ctx) : Color := if ctx.currentPlayerIsZero then .W else .B

/-- The one-letter code suffix the source obtains with `pieceCode.slice(1)`. -/
def kindLetter (k : Kind) : String :=
  match k with
  | .pawn => "P"
  | .king => "K"
  | .knight => "N"
  | .rook => "R"
  | .bishop => "B"
  | .queen => "Q"
  | .charger => "C"
  | .dragon => "D"
  | .guardian => "G"
  | .fool => "F"
  | .moon => "M"

/-- Source `moveToString`. -/
def moveToString (fromIdx : Option Nat) (pieceCode : PieceCode) (toIdx : Nat)
    (targetCode : Option PieceCode) (promoted : Bool) : String :=
  let s0 := match fromIdx with
    | some f => toString (f + 1)
    | none => "S: "
  let s1 := kindLetter (kindOf pieceCode)
  let s2 := match targetCode with
    | some t =>
      if isEnemy (some pieceCode) (some t) then "x" else "🗘"
    | none => ""
  let s3 := toString (toIdx + 1)
  let s4 := if promoted then "=Q" else ""
  let s5 := if (targetCode.map kindOf) = some .king then "#" else ""
  s0 ++ s1 ++ s2 ++ s3 ++ s4 ++ s5

/-- Source `logMove`: fill the first record whose slot for `color` is empty,
else append a fresh record. -/
def logMoveList (log : List LogEntry) (c : Color) (s : String) : List LogEntry :=
  match log with
  | [] => [(LogEntry.mk none none).put c s]
  | e :: rest =>
    if e.get c = none then e.put c s :: rest
    else e :: logMoveList rest c s

def logMove (G : GameState) (c : Color) (fromIdx : Option Nat) (pieceCode : PieceCode)
    (toIdx : Nat) (targetCode : Option PieceCode) (promoted : Bool) : GameState :=
  ⟨G.cells, G.setupPoolW, G.setupPoolB,
    logMoveList G.movesLog c (moveToString fromIdx pieceCode toIdx targetCode promoted)⟩

/-- Source `pieceLegalMoves` (wrapper over the cells-only dispatcher). -/
def pieceLegalMoves (G : GameState) (index : Nat) : List Nat :=
  legalMovesFromCells G.cells index

/-- Source `playerHasAnyMove`. -/
def playerHasAnyMove (G : GameState) (c : Color) : Bool :=
  (List.range G.cells.length).any fun i =>
    match cellAt G.cells i with
    | none => false
    | some pieceCode =>
      colorOf pieceCode = c && ¬ (pieceLegalMoves G i).isEmpty

/-- Source `isLegalPlay`: correct side to move and per-piece move rules. -/
def isLegalPlay (G : GameState) (ctx : Ctx) (fromIdx toIdx : Nat) : Bool :=
  match cellAt G.cells fromIdx with
  | none => false
  | some pieceCode =>
    colorOf pieceCode = colorToMove ctx && (pieceLegalMoves G fromIdx).contains toIdx

/-- Source `applyPlay`: dragon collateral, piece relocation, guardian swap,
auto-promotion to queen, move logging.  The JS guard `if (collateralIndex)` is
falsy for the number 0, reproduced by the inner test. -/
def applyPlay (G : GameState) (fromIdx toIdx : Nat) : GameState :=
  match cellAt G.cells fromIdx with
  | none => G  -- unreachable: applyPlay runs only after isLegalPlay
  | some movedPieceCode =>
    let targetCode := cellAt G.cells toIdx
    let cells := G.cells
    let cells :=
      if kindOf movedPieceCode = .dragon ∧ targetCode ≠ none then
        match dragonCollateral fromIdx toIdx with
        | some collateralIndex =>
          if collateralIndex ≠ 0 then cells.set collateralIndex none else cells
        | none => cells
      else cells
    let cells := (cells.set toIdx (some movedPieceCode)).set fromIdx none
    let cells :=
      if kindOf movedPieceCode = .guardian ∧ targetCode ≠ none
          ∧ ¬ isEnemy (some movedPieceCode) targetCode then
        cells.set fromIdx targetCode
      else cells
    let promoted :=
      (movedPieceCode = WP ∧ isBackRank .B toIdx) ∨
      (movedPieceCode = BP ∧ isBackRank .W toIdx)
    let cells :=
      if movedPieceCode = WP ∧ isBackRank .B toIdx then cells.set toIdx (some WQ)
      else if movedPieceCode = BP ∧ isBackRank .W toIdx then cells.set toIdx (some BQ)
      else cells
    logMove (G.setCells cells) (colorOf movedPieceCode) (some fromIdx) movedPieceCode
      toIdx targetCode promoted

/-- Outcome of a setup command: `invalid` models the INVALID_MOVE return (the
framework leaves the Game Position unchanged), `crash` models the TypeError the
source throws in `moveToString` when the fill loop runs out of pool entries. -/
inductive PlaceResult where
  | invalid
  | crash
  | ok (G : GameState)
deriving DecidableEq, Repr

/-- Fill loop of source `placeAll`: place `remainingPool[k]` on the k-th empty
back-rank cell, log it, and splice it out of the live pool. -/
def placeAllLoop (G : GameState) (c : Color) :
    List Nat → List PieceCode → PlaceResult
  | [], _ => .ok G
  | _ :: _, [] => .crash
  | toIndex :: rest, pieceCode :: queue =>
    let G1 := (G.setCells (G.cells.set toIndex (some pieceCode)))
    let G2 := logMove G1 c none pieceCode toIndex none false
    let G3 := G2.setPool c ((G2.pool c).erase pieceCode)
    placeAllLoop G3 c rest queue

/-- Swap two (in-range) positions of a list, as the source's destructuring
assignment does. -/
def listSwap (l : List PieceCode) (i j : Nat) : List PieceCode :=
  match l.get? i, l.get? j with
  | some a, some b => (l.set i b).set j a
  | _, _ => l

/-- Source `placeAll`.  The randomness source is modelled by the values it
returns: `rand = some (shuffled, die)` gives the list `random.Shuffle` produced
from the pool and the `random.Die(numberOfEmpties)` roll (1-based); `none` is
the fixed-order variant. -/
def placeAll (G : GameState) (c : Color) (rand : Option (List PieceCode × Nat)) :
    PlaceResult :=
  let emptyBackRankCells := (BACK_RANK c).filter fun i => cellAt G.cells i = none
  let setupPool := G.pool c
  let numberOfEmpties := emptyBackRankCells.length
  if numberOfEmpties = 0 then .invalid
  else
    let remainingPool :=
      match rand with
      | some (shuffled, die) =>
        match shuffled.indexOf? (kingCodeOf c) with
        | some kingIndex =>
          if numberOfEmpties ≤ kingIndex then listSwap shuffled (die - 1) kingIndex
          else shuffled
        | none => shuffled
      | none => (SETUP_POOL c).filter fun code => setupPool.contains code
    placeAllLoop G c emptyBackRankCells remainingPool

/-- Source `placePiece` move: validate, place, log, shrink the pool, and apply
the king-reservation rule (when a single empty back-rank cell remains and the
king is still pooled, the pool is reduced to just the king). -/
def placePiece (G : GameState) (ctx : Ctx) (toIndex : Nat) (pieceCode : PieceCode) :
    Option GameState :=
  let c := colorToMove ctx
  if ¬ isBackRank c toIndex then none
  else if cellAt G.cells toIndex ≠ none then none
  else if ¬ (G.pool c).contains pieceCode then none
  else if colorOf pieceCode ≠ c then none
  else
    let G1 := G.setCells (G.cells.set toIndex (some pieceCode))
    let G2 := logMove G1 c none pieceCode toIndex none false
    let G3 := G2.setPool c ((G2.pool c).erase pieceCode)
    let emptyBackRankCells := (BACK_RANK c).filter fun i => cellAt G3.cells i = none
    let G4 :=
      if emptyBackRankCells.length = 1 ∧ (G3.pool c).contains (kingCodeOf c) then
        G3.setPool c [kingCodeOf c]
      else G3
    some G4

/-- Source `play` move: INVALID_MOVE (modelled `none`) unless `isLegalPlay`. -/
def play (G : GameState) (ctx : Ctx) (fromIdx toIdx : Nat) : Option GameState :=
  if isLegalPlay G ctx fromIdx toIdx then some (applyPlay G fromIdx toIdx) else none

inductive GameResult where
  | draw
  | winner (c : Color)
deriving DecidableEq, Repr

/-- Source top-level `endIf`: nothing during setup; draw when both kings are
gone; a win for the surviving king's color when one is gone; draw when the side
to move has no legal move; otherwise the game continues. -/
def endIf (G : GameState) (ctx : Ctx) : Option GameResult :=
  if ctx.phase = .setup then none
  else
    let whiteKingAlive := G.cells.any fun cell => cell = some WK
    let blackKingAlive := G.cells.any fun cell => cell = some BK
    if ¬ whiteKingAlive ∧ ¬ blackKingAlive then some .draw
    else if ¬ whiteKingAlive then some (.winner .B)
    else if ¬ blackKingAlive then some (.winner .W)
    else if ¬ playerHasAnyMove G (colorToMove ctx) then some .draw
    else none

/-- Source `generateAllMoves`. -/
def generateAllMoves (G : GameState) (c : Color) : List (Nat × Nat) :=
  (List.range G.cells.length).flatMap fun fromIdx =>
    match cellAt G.cells fromIdx with
    | none => []
    | some pieceCode =>
      if colorOf pieceCode = c then
        (pieceLegalMoves G fromIdx).map fun toIdx => (fromIdx, toIdx)
      else []

/-- Capture-first comparison used to model the source's stable
`chosenMoves.sort((a, b) => (G.cells[b.to] ? 1 : 0) - (G.cells[a.to] ? 1 : 0))`. -/
def captureLe (G : GameState) (a b : Nat × Nat) : Bool :=
  (if cellAt G.cells b.2 ≠ none then 1 else 0) ≤
    (if cellAt G.cells a.2 ≠ none then 1 else 0)

/-- Play-phase branch of source `ai.enumerate`: all legal moves of the side to
move, filtered to king-safe ones when any exists, sorted captures first. -/
def aiEnumeratePlay (G : GameState) (c : Color) : List (Nat × Nat) :=
  let allMoves := generateAllMoves G c
  let safeMoves := allMoves.filter fun m =>
    ¬ isKingAttacked (nextStateCells G.cells m.1 m.2) c
  let chosenMoves := if safeMoves.isEmpty then allMoves else safeMoves
  chosenMoves.mergeSort (captureLe G)

/-- All-empty board, used to build concrete positions. -/
def emptyCells : Cells := List.replicate 37 none

/-! ## Helper lemmas -/

theorem foldl_pick_mem {p : Nat → Bool} {j : Nat} :
    ∀ (L : List Nat) (acc : Option Nat),
      L.foldl (fun acc i => if p i then some i else acc) acc = some j →
      (p j ∧ j ∈ L) ∨ acc = some j := by
  intro L
  induction L with
  | nil => intro acc h; exact Or.inr h
  | cons a L ih =>
    intro acc h
    rcases ih _ h with ⟨hp, hm⟩ | hacc
    · exact Or.inl ⟨hp, List.mem_cons_of_mem _ hm⟩
    · by_cases hpa : p a
      · simp only [hpa, if_pos] at hacc
        cases hacc
        exact Or.inl ⟨hpa, List.mem_cons_self _ _⟩
      · simp only [hpa] at hacc
        simp only [if_neg, Bool.false_eq_true] at hacc
        exact Or.inr hacc

/-- Soundness of the reverse lookup: a returned index is on the board and
carries exactly the queried coordinates. -/
theorem getIndexOf_sound {q r : Int} {j : Nat} (h : getIndexOf q r = some j) :
    j < GRID.length ∧ GRID.getD j ⟨0, 0⟩ = ⟨q, r⟩ := by
  unfold getIndexOf at h
  have h2 : (List.range GRID.length).foldl
      (fun acc i => if (fun i => decide (GRID.getD i ⟨0, 0⟩ = ⟨q, r⟩)) i
        then some i else acc) none = some j := by
    simpa [decide_eq_true_eq] using h
  rcases foldl_pick_mem _ _ h2 with ⟨hp, hm⟩ | hbad
  · exact ⟨List.mem_range.1 hm, of_decide_eq_true hp⟩
  · cases hbad

/-- A coordinate pair outside the grid has no index. -/
theorem getIndexOf_not_mem {q r : Int} (h : Axial.mk q r ∉ GRID) :
    getIndexOf q r = none := by
  cases hg : getIndexOf q r with
  | none => rfl
  | some j =>
    rcases getIndexOf_sound hg with ⟨hj, hco⟩
    have hmem : GRID.getD j ⟨0, 0⟩ ∈ GRID := by
      rw [List.getD_eq_getElem GRID _ hj]
      exact List.getElem_mem hj
    exact absurd (hco ▸ hmem) h

/-! ## Claim C8: grid size, ordering, and coordinate bijection -/

set_option maxHeartbeats 1000000 in
/-- Claim C8: the radius-2 grid has exactly 37 = 6·R²+6·R+1 cells, listed
sorted by q ascending then r descending (which fixes index assignment and
makes the coordinates pairwise distinct); every coordinate of the grid
round-trips through `getIndexOf` back to its own index; and any coordinate
absent from the grid maps to the off-board value `none`. -/
theorem claim_C8 :
    GRID.length = 6 * 2 ^ 2 + 6 * 2 + 1 ∧
    List.Pairwise (fun a b : Axial => a.q < b.q ∨ (a.q = b.q ∧ b.r < a.r)) GRID ∧
    GRID.Nodup ∧
    (∀ i : Fin GRID.length, getIndexOf (GRID.get i).q (GRID.get i).r = some i.val) ∧
    (∀ q r : Int, Axial.mk q r ∉ GRID → getIndexOf q r = none) := by
  refine ⟨by decide, by decide, by decide, by decide, ?_⟩
  intro q r h
  exact getIndexOf_not_mem h

/-- Witness for C8: the grid origin shifted by 999 is off-board. -/
theorem claim_C8_witness : getIndexOf 999 999 = none :=
  claim_C8.2.2.2.2 999 999 (by decide)

/-! ## Claim C1: sliding attack detection versus the sliding move generators -/

/-- Board with a white king on the central cell 18 and an enemy rook two steps
north of it (cell 20), with the intermediate cell 19 empty. -/
def c1RookCells : Cells := (emptyCells.set 18 (some WK)).set 20 (some BR)

/-- Board with the enemy rook replaced by an enemy bishop on the same cell. -/
def c1BishopCells : Cells := (emptyCells.set 18 (some WK)).set 20 (some BB)

set_option maxHeartbeats 1000000 in
/-- Claim C1 is false of the code: `isKingAttacked` checks the rook/queen kind
set along directions [2,5] and the bishop/queen kind set along [0,1,3,4],
while `rookMoves` slides along [0,3] and `bishopMoves` along [1,2,4,5].  On
`c1RookCells` the enemy rook's legal destinations contain the king's cell yet
the king is reported safe, and on `c1BishopCells` the king is reported
attacked although the enemy bishop cannot reach its cell. -/
theorem claim_C1 :
    (c1RookCells.getD 18 none = some WK ∧
      18 ∈ rookMoves c1RookCells 20 ∧
      isKingAttacked c1RookCells .W = false) ∧
    (c1BishopCells.getD 18 none = some WK ∧
      18 ∉ bishopMoves c1BishopCells 20 ∧
      isKingAttacked c1BishopCells .W = true) := by
  decide

/-! ## Claim C4: play-phase acceptance criterion -/

/-- Claim C4: `play(from, to)` is accepted exactly when the cell at `from`
holds a piece of the side to move and `to` is in that piece's legal-destination
set per `legalMovesFromCells`; the criterion involves no king-safety condition,
so acceptance never depends on whether the mover's king is left attacked. -/
theorem claim_C4 (G : GameState) (ctx : Ctx) (fromIdx toIdx : Nat)
    (_hphase : ctx.phase = .play) :
    (play G ctx fromIdx toIdx).isSome ↔
      ∃ pc, cellAt G.cells fromIdx = some pc ∧ colorOf pc = colorToMove ctx ∧
        toIdx ∈ pieceLegalMoves G fromIdx := by
  unfold play isLegalPlay
  cases h : cellAt G.cells fromIdx with
  | none => simp [h]
  | some pc =>
    by_cases hc : colorOf pc = colorToMove ctx
    · by_cases hm : toIdx ∈ pieceLegalMoves G fromIdx
      · simp [h, hc, hm]
      · simp [h, hc, hm]
    · simp [h, hc]

/-- Concrete board for the C4 witness: a lone white king in the center. -/
def c4State : GameState := ⟨emptyCells.set 18 (some WK), [], [], []⟩

def c4Ctx : Ctx := ⟨true, .play⟩

/-- Witness for C4: moving the white king one step north is accepted. -/
theorem claim_C4_witness : (play c4State c4Ctx 18 19).isSome :=
  (claim_C4 c4State c4Ctx 18 19 rfl).mpr ⟨WK, by decide, by decide, by decide⟩

/-! ## Claim C6: end-condition evaluation -/

/-- Claim C6: during setup the end-condition evaluation never reports a
terminal result; in the play phase it reports a draw when neither king is on
the board, a win for the surviving king's color when exactly one remains,
a draw when both remain but the side to move has no legal move, and no
result otherwise. -/
theorem claim_C6 (G : GameState) (ctx : Ctx) :
    (ctx.phase = .setup → endIf G ctx = none) ∧
    (ctx.phase = .play →
      (some WK ∉ G.cells → some BK ∉ G.cells → endIf G ctx = some .draw) ∧
      (some WK ∈ G.cells → some BK ∉ G.cells → endIf G ctx = some (.winner .W)) ∧
      (some WK ∉ G.cells → some BK ∈ G.cells → endIf G ctx = some (.winner .B)) ∧
      (some WK ∈ G.cells → some BK ∈ G.cells →
        playerHasAnyMove G (colorToMove ctx) = false → endIf G ctx = some .draw) ∧
      (some WK ∈ G.cells → some BK ∈ G.cells →
        playerHasAnyMove G (colorToMove ctx) = true → endIf G ctx = none)) := by
  constructor
  · intro h
    simp [endIf, h]
  · intro hphase
    have hnotsetup : ¬ ctx.phase = .setup := by rw [hphase]; intro h; cases h
    refine ⟨?_, ?_, ?_, ?_, ?_⟩
    · intro h1 h2; simp [endIf, hnotsetup, h1, h2]
    · intro h1 h2; simp [endIf, hnotsetup, h1, h2]
    · intro h1 h2; simp [endIf, hnotsetup, h1, h2]
    · intro h1 h2 h3; simp [endIf, hnotsetup, h1, h2, h3]
    · intro h1 h2 h3; simp [endIf, hnotsetup, h1, h2, h3]

/-- Witness for C6: on an empty play-phase board (no kings at all) the
evaluation reports a draw. -/
theorem claim_C6_witness :
    endIf (GameState.mk emptyCells [] [] []) (Ctx.mk true .play) = some .draw :=
  ((claim_C6 (GameState.mk emptyCells [] [] []) (Ctx.mk true .play)).2 rfl).1
    (by decide) (by decide)

/-! ## Claim C5: rejected commands signal INVALID_MOVE without mutating state -/

/-- The fill loop of `placeAll` never produces the INVALID_MOVE signal: that
signal is emitted only by the up-front validation. -/
theorem placeAllLoop_ne_invalid (c : Color) :
    ∀ (empties : List Nat) (queue : List PieceCode) (G : GameState),
      placeAllLoop G c empties queue ≠ .invalid := by
  intro empties
  induction empties with
  | nil => intro queue G h; cases h
  | cons i rest ih =>
    intro queue G h
    cases queue with
    | nil => cases h
    | cons code queue => exact ih queue _ h

/-- Claim C5: each command rejects exactly when its validation fails — all of
`placePiece`'s four checks, `placeAll`'s empty-cell check (for the fixed and
the random variant alike), and `play`'s `isLegalPlay` check run before any
state is built, so a rejection (modelled by `none` / `.invalid`, which carry
no successor state: the framework keeps the old Game Position) leaves board,
pools, log and phase untouched. -/
theorem claim_C5 (G : GameState) (ctx : Ctx) (toIndex : Nat) (code : PieceCode)
    (c : Color) (rand : Option (List PieceCode × Nat)) (fromIdx toIdx : Nat) :
    (placePiece G ctx toIndex code = none ↔
      ¬ (isBackRank (colorToMove ctx) toIndex = true ∧
         cellAt G.cells toIndex = none ∧
         code ∈ G.pool (colorToMove ctx) ∧
         colorOf code = colorToMove ctx)) ∧
    (placeAll G c rand = .invalid ↔
      ((BACK_RANK c).filter fun i => cellAt G.cells i = none).length = 0) ∧
    (play G ctx fromIdx toIdx = none ↔ isLegalPlay G ctx fromIdx toIdx = false) := by
  refine ⟨?_, ?_, ?_⟩
  · by_cases h1 : isBackRank (colorToMove ctx) toIndex = true
    · by_cases h2 : cellAt G.cells toIndex = none
      · by_cases h3 : code ∈ G.pool (colorToMove ctx)
        · by_cases h4 : colorOf code = colorToMove ctx
          · simp [placePiece, h1, h2, h3, h4]
          · simp [placePiece, h1, h2, h3, h4]
        · simp [placePiece, h1, h2, h3]
      · simp [placePiece, h1, h2]
    · simp [placePiece, h1]
  · by_cases h : ((BACK_RANK c).filter fun i => cellAt G.cells i = none).length = 0
    · simp [placeAll, h]
    · simp only [placeAll, h, if_neg]
      constructor
      · intro hbad
        exact absurd hbad (placeAllLoop_ne_invalid c _ _ _)
      · intro hbad
        exact hbad.elim
  · by_cases h : isLegalPlay G ctx fromIdx toIdx
    · simp [play, h]
    · simp [play, h]

/-! ## Claim C2: dragon collateral removal on application -/

theorem GRID_length_eq : GRID.length = 37 := by decide

theorem step_some_bounds {fromIdx d s t : Nat}
    (h : stepInDirection fromIdx d s = some t) :
    fromIdx < GRID.length ∧ d < AXIAL_DIRS.length := by
  unfold stepInDirection at h
  cases hg : GRID.get? fromIdx with
  | none => rw [hg] at h; cases h
  | some c =>
    cases ha : AXIAL_DIRS.get? d with
    | none => rw [hg, ha] at h; cases h
    | some dv =>
      obtain ⟨hlt1, -⟩ := List.get?_eq_some.1 hg
      obtain ⟨hlt2, -⟩ := List.get?_eq_some.1 ha
      exact ⟨hlt1, hlt2⟩

set_option maxHeartbeats 2000000 in
/-- Geometry of a two-step move: the intermediate cell exists, is distinct
from the endpoints, is never cell 0 (so the JS truthiness guard
`if (collateralIndex)` cannot mask it), and `dragonCollateral` returns it. -/
theorem twoStep_geometry :
    ∀ fromIdx, fromIdx < 37 → ∀ d, d < 6 → ∀ toIdx,
      stepInDirection fromIdx d 2 = some toIdx →
      ∃ mid, stepInDirection fromIdx d 1 = some mid ∧ mid ≠ 0 ∧
        mid ≠ toIdx ∧ mid ≠ fromIdx ∧ dragonCollateral fromIdx toIdx = some mid := by
  decide

set_option maxHeartbeats 2000000 in
/-- A one-step destination is never a two-step destination, so
`dragonCollateral` finds nothing for a one-step move. -/
theorem oneStep_no_collateral :
    ∀ fromIdx, fromIdx < 37 → ∀ d, d < 6 → ∀ toIdx,
      stepInDirection fromIdx d 1 = some toIdx →
      dragonCollateral fromIdx toIdx = none := by
  decide

theorem cellAt_set_ne {l : Cells} {i j : Nat} (v : Option PieceCode) (h : i ≠ j) :
    cellAt (l.set i v) j = cellAt l j := by
  simp [cellAt, List.getD_eq_getElem?_getD, List.getElem?_set_ne h]

theorem cellAt_set_none {l : Cells} {i : Nat} :
    cellAt (l.set i none) i = none := by
  by_cases h : i < l.length
  · simp [cellAt, List.getD_eq_getElem?_getD, List.getElem?_set_self, h]
  · have hl : (l.set i none).length ≤ i := by
      rw [List.length_set]; omega
    simp [cellAt, List.getD_eq_getElem?_getD, List.getElem?_eq_none hl]

set_option maxHeartbeats 1000000 in
/-- Claim C2: committing a dragon move of exactly two steps onto an
enemy-occupied cell empties the single intermediate cell (whatever its
previous occupant was), and committing a dragon move of exactly one step
changes no cell besides the source and destination cells. -/
theorem claim_C2 (G : GameState) (fromIdx toIdx d : Nat) (pc : PieceCode)
    (hfrom : cellAt G.cells fromIdx = some pc) (hkind : kindOf pc = .dragon) :
    (∀ tc, cellAt G.cells toIdx = some tc → isEnemy (some pc) (some tc) = true →
      stepInDirection fromIdx d 2 = some toIdx →
      ∃ mid, stepInDirection fromIdx d 1 = some mid ∧
        cellAt (applyPlay G fromIdx toIdx).cells mid = none) ∧
    (stepInDirection fromIdx d 1 = some toIdx →
      ∀ j, j ≠ fromIdx → j ≠ toIdx →
        cellAt (applyPlay G fromIdx toIdx).cells j = cellAt G.cells j) := by
  have hnWP : pc ≠ WP := by
    intro h; rw [h] at hkind; exact absurd hkind (by decide)
  have hnBP : pc ≠ BP := by
    intro h; rw [h] at hkind; exact absurd hkind (by decide)
  constructor
  · intro tc htc henemy hstep2
    obtain ⟨hf37, hd6⟩ := step_some_bounds hstep2
    have hf37 : fromIdx < 37 := by simpa [GRID_length_eq] using hf37
    have hd6 : d < 6 := by simpa [AXIAL_DIRS] using hd6
    obtain ⟨mid, hmid, hmid0, hmidt, hmidf, hcol⟩ :=
      twoStep_geometry fromIdx hf37 d hd6 toIdx hstep2
    refine ⟨mid, hmid, ?_⟩
    simp only [applyPlay, hfrom, htc, hkind, hcol, logMove, GameState.setCells]
    simp only [hnWP, hnBP, false_and, if_neg, ite_false, reduceIte]
    simp only [ne_eq, reduceCtorEq, not_false_eq_true, and_true, and_self, ite_true,
      if_pos, hmid0, ite_not]
    rw [if_neg (by simp)]
    rw [cellAt_set_ne _ (fun h => hmidf h.symm), cellAt_set_ne _ (fun h => hmidt h.symm)]
    exact cellAt_set_none
  · intro hstep1 j hjf hjt
    obtain ⟨hf37, hd6⟩ := step_some_bounds hstep1
    have hf37 : fromIdx < 37 := by simpa [GRID_length_eq] using hf37
    have hd6 : d < 6 := by simpa [AXIAL_DIRS] using hd6
    have hcol := oneStep_no_collateral fromIdx hf37 d hd6 toIdx hstep1
    simp only [applyPlay, hfrom, hkind, hcol, logMove, GameState.setCells]
    simp only [hnWP, hnBP, false_and, if_neg, ite_false, reduceIte, ite_self]
    rw [if_neg (by simp)]
    rw [cellAt_set_ne _ (fun h => hjf h.symm), cellAt_set_ne _ (fun h => hjt h.symm)]

/-- Concrete position for the C2 witness: a white dragon on 18, a white knight
on the intermediate cell 19, an enemy pawn on the landing cell 20. -/
def c2State : GameState :=
  ⟨((emptyCells.set 18 (some WD)).set 19 (some WN)).set 20 (some BP), [], [], []⟩

/-- Witness for C2: the dragon's two-step capture 18 → 20 clears the
(friendly-occupied) intermediate cell. -/
theorem claim_C2_witness :
    ∃ mid, stepInDirection 18 0 1 = some mid ∧
      cellAt (applyPlay c2State 18 20).cells mid = none :=
  (claim_C2 c2State 18 20 0 WD (by decide) (by decide)).1 BP (by decide) (by decide)
    (by decide)

/-! ## State-surgery helper lemmas -/

theorem setPool_cells (G : GameState) (c : Color) (p : List PieceCode) :
    (G.setPool c p).cells = G.cells := by
  cases c <;> rfl

theorem setPool_pool (G : GameState) (c : Color) (p : List PieceCode) :
    (G.setPool c p).pool c = p := by
  cases c <;> rfl

theorem cellAt_set_self {l : Cells} {i : Nat} (v : Option PieceCode)
    (h : i < l.length) : cellAt (l.set i v) i = v := by
  simp [cellAt, List.getD_eq_getElem?_getD, List.getElem?_set_self, h]

/-! ## Claim C7: AI move enumeration during play -/

theorem cellAt_eq_some_lt {l : Cells} {i : Nat} {x : PieceCode}
    (h : cellAt l i = some x) : i < l.length := by
  by_cases hlt : i < l.length
  · exact hlt
  · rw [cellAt, List.getD_eq_getElem?_getD, List.getElem?_eq_none (le_of_not_lt hlt)] at h
    cases h

theorem captureLe_trans (G : GameState) (a b e : Nat × Nat)
    (h1 : captureLe G a b = true) (h2 : captureLe G b e = true) :
    captureLe G a e = true := by
  unfold captureLe at h1 h2 ⊢
  simp only [decide_eq_true_eq] at h1 h2 ⊢
  omega

theorem captureLe_total (G : GameState) (a b : Nat × Nat) :
    (captureLe G a b || captureLe G b a) = true := by
  unfold captureLe
  by_cases ha : cellAt G.cells a.2 ≠ none <;> by_cases hb : cellAt G.cells b.2 ≠ none <;>
    simp [ha, hb]

/-- Claim C7: in the play phase the AI enumerates exactly the legal moves of
the side to move (characterized against `legalMovesFromCells`), keeps only the
king-safe ones (via `nextStateCells` and `isKingAttacked`) whenever at least
one exists and otherwise the full set, and lists every capture (destination
occupied) before every non-capture. -/
theorem claim_C7 (G : GameState) (c : Color) :
    (∀ fromIdx toIdx : Nat, (fromIdx, toIdx) ∈ generateAllMoves G c ↔
      ∃ pc, cellAt G.cells fromIdx = some pc ∧ colorOf pc = c ∧
        toIdx ∈ legalMovesFromCells G.cells fromIdx) ∧
    (aiEnumeratePlay G c).Perm
      (if ((generateAllMoves G c).filter fun m =>
            ¬ isKingAttacked (nextStateCells G.cells m.1 m.2) c).isEmpty
       then generateAllMoves G c
       else (generateAllMoves G c).filter fun m =>
         ¬ isKingAttacked (nextStateCells G.cells m.1 m.2) c) ∧
    List.Pairwise (fun a b : Nat × Nat =>
      cellAt G.cells b.2 ≠ none → cellAt G.cells a.2 ≠ none) (aiEnumeratePlay G c) := by
  refine ⟨?_, ?_, ?_⟩
  · intro fromIdx toIdx
    constructor
    · intro h
      obtain ⟨f, hf, hmem⟩ := List.mem_flatMap.1 h
      cases hcell : cellAt G.cells f with
      | none => rw [hcell] at hmem; cases hmem
      | some pc =>
        rw [hcell] at hmem
        have hmem2 : (fromIdx, toIdx) ∈
            (if colorOf pc = c then
              (pieceLegalMoves G f).map (fun toIdx => (f, toIdx)) else []) := hmem
        by_cases hcol : colorOf pc = c
        · rw [if_pos hcol] at hmem2
          obtain ⟨t, ht, heq⟩ := List.mem_map.1 hmem2
          injection heq with h1 h2
          subst h1; subst h2
          exact ⟨pc, hcell, hcol, ht⟩
        · rw [if_neg hcol] at hmem2; cases hmem2
    · rintro ⟨pc, hcell, hcol, hmem⟩
      refine List.mem_flatMap.2 ⟨fromIdx, List.mem_range.2 (cellAt_eq_some_lt hcell), ?_⟩
      rw [hcell]
      show (fromIdx, toIdx) ∈
        (if colorOf pc = c then
          (pieceLegalMoves G fromIdx).map (fun toIdx => (fromIdx, toIdx)) else [])
      rw [if_pos hcol]
      exact List.mem_map.2 ⟨toIdx, hmem, rfl⟩
  · unfold aiEnumeratePlay
    exact List.mergeSort_perm _ _
  · have hpair := @List.sorted_mergeSort _ (captureLe G)
      (captureLe_trans G) (captureLe_total G)
      (if ((generateAllMoves G c).filter fun m =>
            ¬ isKingAttacked (nextStateCells G.cells m.1 m.2) c).isEmpty
       then generateAllMoves G c
       else (generateAllMoves G c).filter fun m =>
         ¬ isKingAttacked (nextStateCells G.cells m.1 m.2) c)
    have hres : List.Pairwise (fun a b => captureLe G a b = true) (aiEnumeratePlay G c) := by
      unfold aiEnumeratePlay
      exact hpair
    refine hres.imp ?_
    intro a b hle
    unfold captureLe at hle
    simp only [decide_eq_true_eq] at hle
    intro hb
    by_cases ha : cellAt G.cells a.2 ≠ none
    · exact ha
    · rw [if_pos hb, if_neg ha] at hle
      omega

/-! ## Claim C10: the king always reaches the board during setup -/

theorem indexOf?_spec {α : Type} [DecidableEq α] {l : List α} {a : α} {i : Nat}
    (h : l.indexOf? a = some i) : i < l.length ∧ l.get? i = some a := by
  have h' : l.findIdx? (· == a) = some i := h
  obtain ⟨hlt, hfi⟩ := List.findIdx?_eq_some_iff_findIdx_eq.1 h'
  have h4 := @List.findIdx_getElem _ (· == a) l (hfi ▸ hlt)
  refine ⟨hlt, ?_⟩
  rw [List.get?_eq_getElem?, List.getElem?_eq_getElem hlt]
  have h5 : l.findIdx (· == a) = i := hfi
  have h6 : (l.get ⟨i, hlt⟩) = a := by
    have h7 := h4
    simp only [h5] at h7
    exact eq_of_beq h7
  simpa [List.get_eq_getElem] using congrArg some h6

theorem indexOf?_of_mem {α : Type} [DecidableEq α] {l : List α} {a : α} (h : a ∈ l) :
    ∃ i, l.indexOf? a = some i := by
  cases hx : l.indexOf? a with
  | some i => exact ⟨i, rfl⟩
  | none =>
    have := List.indexOf?_eq_none_iff.1 hx a h
    simp at this

theorem cellAt_mem {l : Cells} {i : Nat} {x : PieceCode} (h : cellAt l i = some x) :
    some x ∈ l := by
  have hlt := cellAt_eq_some_lt h
  rw [cellAt, List.getD_eq_getElem?_getD, List.getElem?_eq_getElem hlt] at h
  simp only [Option.getD_some] at h
  exact h ▸ List.getElem_mem hlt

theorem listSwap_get_left {l : List PieceCode} {i j : Nat} (hne : i ≠ j)
    (hi : i < l.length) (hj : j < l.length) :
    (listSwap l i j).get? i = l.get? j := by
  have hgi : l.get? i = some (l.get ⟨i, hi⟩) := by rw [List.get?_eq_get hi]
  have hgj : l.get? j = some (l.get ⟨j, hj⟩) := by rw [List.get?_eq_get hj]
  unfold listSwap
  rw [hgi, hgj]
  simp only []
  rw [List.get?_eq_getElem?]
  rw [List.getElem?_set_ne (fun hx => hne hx.symm)]
  simp [List.getElem?_set_self, hi]

/-- Cells after one body iteration of the fill loop. -/
theorem loop_step_cells (G : GameState) (c : Color) (cs : Cells)
    (code : PieceCode) (toI : Nat) (p : List PieceCode) :
    (((logMove (G.setCells cs) c none code toI none false).setPool c p).cells) = cs := by
  rw [setPool_cells]
  rfl

/-- The fill loop never touches a cell outside its list of empty cells. -/
theorem placeAllLoop_untouched (c : Color) :
    ∀ (empties : List Nat) (queue : List PieceCode) (G G1 : GameState),
      placeAllLoop G c empties queue = .ok G1 →
      ∀ j, j ∉ empties → cellAt G1.cells j = cellAt G.cells j := by
  intro empties
  induction empties with
  | nil =>
    intro queue G G1 h j _
    cases h
    rfl
  | cons i rest ih =>
    intro queue G G1 h j hj
    cases queue with
    | nil => cases h
    | cons code q =>
      simp only [placeAllLoop] at h
      have hji : j ≠ i := fun he => hj (he ▸ List.mem_cons_self i rest)
      have hjr : j ∉ rest := fun hm => hj (List.mem_cons_of_mem _ hm)
      have hrec := ih q _ G1 h j hjr
      rw [hrec, loop_step_cells]
      exact cellAt_set_ne _ (fun he => hji he.symm)

/-- The fill loop puts the pos-th queue entry on the pos-th empty cell. -/
theorem placeAllLoop_places (c : Color) :
    ∀ (empties : List Nat) (queue : List PieceCode) (G G1 : GameState) (pos i : Nat)
      (code : PieceCode),
      placeAllLoop G c empties queue = .ok G1 →
      empties.Nodup →
      empties.get? pos = some i →
      queue.get? pos = some code →
      i < G.cells.length →
      cellAt G1.cells i = some code := by
  intro empties
  induction empties with
  | nil =>
    intro queue G G1 pos i code _ _ hget
    simp at hget
  | cons i0 rest ih =>
    intro queue G G1 pos i code h hnd hget hq hlen
    cases queue with
    | nil => cases h
    | cons code0 q =>
      simp only [placeAllLoop] at h
      cases pos with
      | zero =>
        simp only [List.get?_cons_zero, Option.some.injEq] at hget hq
        subst hget; subst hq
        have hnotin : i0 ∉ rest := (List.nodup_cons.1 hnd).1
        have hrec := placeAllLoop_untouched c rest q _ G1 h i0 hnotin
        rw [hrec, loop_step_cells]
        exact cellAt_set_self _ hlen
      | succ p =>
        simp only [List.get?_cons_succ] at hget hq
        refine ih q _ G1 p i code h (List.nodup_cons.1 hnd).2 hget hq ?_
        rw [loop_step_cells, List.length_set]
        exact hlen

theorem logMove_cells (G : GameState) (c0 : Color) (f : Option Nat) (pc : PieceCode)
    (t : Nat) (tc : Option PieceCode) (p : Bool) :
    (logMove G c0 f pc t tc p).cells = G.cells := rfl

theorem setCells_cells (G : GameState) (cs : Cells) : (G.setCells cs).cells = cs := rfl

theorem logMove_pool (G : GameState) (c0 : Color) (f : Option Nat) (pc : PieceCode)
    (t : Nat) (tc : Option PieceCode) (p : Bool) (c : Color) :
    (logMove G c0 f pc t tc p).pool c = G.pool c := by
  cases c <;> rfl

theorem setCells_pool (G : GameState) (cs : Cells) (c : Color) :
    (G.setCells cs).pool c = G.pool c := by
  cases c <;> rfl

theorem BACK_RANK_nodup (c : Color) : (BACK_RANK c).Nodup := by
  cases c <;> decide

theorem BACK_RANK_lt (c : Color) : ∀ x ∈ BACK_RANK c, x < 37 := by
  cases c <;> decide

/-- If the fill loop succeeds and the king code sits at an in-range queue
position, the king ends up on the board. -/
theorem placed_king_mem (G : GameState) (c : Color) (G1 : GameState)
    (remaining : List PieceCode) (pos : Nat)
    (hlen37 : G.cells.length = 37)
    (hok : placeAllLoop G c ((BACK_RANK c).filter fun i => cellAt G.cells i = none)
      remaining = .ok G1)
    (hpos : pos < ((BACK_RANK c).filter fun i => cellAt G.cells i = none).length)
    (hget : remaining.get? pos = some (kingCodeOf c)) :
    some (kingCodeOf c) ∈ G1.cells := by
  have hnd : ((BACK_RANK c).filter fun i => cellAt G.cells i = none).Nodup :=
    (BACK_RANK_nodup c).filter _
  have hi0 : ((BACK_RANK c).filter fun i => cellAt G.cells i = none).get? pos =
      some (((BACK_RANK c).filter fun i => cellAt G.cells i = none).get ⟨pos, hpos⟩) :=
    List.get?_eq_get hpos
  have hmemBR : ((BACK_RANK c).filter fun i => cellAt G.cells i = none).get ⟨pos, hpos⟩
      ∈ BACK_RANK c :=
    List.mem_of_mem_filter (List.get_mem _ pos hpos)
  have hlt : ((BACK_RANK c).filter fun i => cellAt G.cells i = none).get ⟨pos, hpos⟩
      < G.cells.length := by
    rw [hlen37]
    exact BACK_RANK_lt c _ hmemBR
  exact cellAt_mem (placeAllLoop_places c _ remaining G G1 pos _ _ hok hnd hi0 hget hlt)

set_option maxHeartbeats 1000000 in
/-- Claim C10: the two mechanisms that guarantee a completed setup always puts
each color's king on the board.  (a) After a successful `placePiece` that
leaves exactly one empty back-rank cell while the king is still pooled, the
pool is reduced to just the king.  (b) `placeAll` with a randomness source
(shuffle outcome `shuffled`, die roll `die` with 1 ≤ die ≤ numberOfEmpties)
always places the king: when the shuffle left the king outside the placed
prefix it is first swapped in. -/
theorem claim_C10 :
    (∀ (G : GameState) (ctx : Ctx) (toIndex : Nat) (code : PieceCode) (G1 : GameState),
      placePiece G ctx toIndex code = some G1 →
      ((BACK_RANK (colorToMove ctx)).filter fun i => cellAt G1.cells i = none).length = 1 →
      kingCodeOf (colorToMove ctx) ∈ (G.pool (colorToMove ctx)).erase code →
      G1.pool (colorToMove ctx) = [kingCodeOf (colorToMove ctx)]) ∧
    (∀ (G : GameState) (c : Color) (shuffled : List PieceCode) (die : Nat)
        (G1 : GameState),
      G.cells.length = 37 →
      placeAll G c (some (shuffled, die)) = .ok G1 →
      kingCodeOf c ∈ shuffled →
      1 ≤ die →
      die ≤ ((BACK_RANK c).filter fun i => cellAt G.cells i = none).length →
      some (kingCodeOf c) ∈ G1.cells) := by
  constructor
  · intro G ctx toIndex code G1 hplace hlen hking
    by_cases h1 : isBackRank (colorToMove ctx) toIndex = true
    swap
    · simp [placePiece, h1] at hplace
    by_cases h2 : cellAt G.cells toIndex = none
    swap
    · simp [placePiece, h1, h2] at hplace
    by_cases h3 : code ∈ G.pool (colorToMove ctx)
    swap
    · simp [placePiece, h1, h2, h3] at hplace
    have h3c : (G.pool (colorToMove ctx)).contains code = true := by simpa using h3
    by_cases h4 : colorOf code = colorToMove ctx
    swap
    · simp [placePiece, h1, h2, h3c, h4] at hplace
    simp only [placePiece, h1, h2, h3c, h4, not_true, not_false_eq_true, ne_eq,
      if_neg, if_pos, ite_false, ite_true, reduceIte, Option.some.injEq] at hplace
    rw [← hplace] at hlen ⊢
    simp only [apply_ite (fun s : GameState => s.cells), setPool_cells, logMove_cells,
      setCells_cells, ite_self] at hlen
    rw [apply_ite (fun s : GameState => s.pool (colorToMove ctx))]
    simp only [setPool_pool, setPool_cells, logMove_cells, setCells_cells,
      logMove_pool, setCells_pool]
    have hcontains : ((G.pool (colorToMove ctx)).erase code).contains
        (kingCodeOf (colorToMove ctx)) = true := by
      simpa using hking
    rw [if_pos ⟨hlen, hcontains⟩]
  · intro G c shuffled die G1 hlen37 hok hkmem hdie1 hdien
    simp only [placeAll] at hok
    have hnpos : ¬ ((BACK_RANK c).filter fun i => cellAt G.cells i = none).length = 0 := by
      omega
    rw [if_neg hnpos] at hok
    obtain ⟨ki, hki⟩ := indexOf?_of_mem hkmem
    obtain ⟨hkilt, hkiget⟩ := indexOf?_spec hki
    rw [hki] at hok
    have hok2 : placeAllLoop G c ((BACK_RANK c).filter fun i => cellAt G.cells i = none)
        (if ((BACK_RANK c).filter fun i => cellAt G.cells i = none).length ≤ ki then
          listSwap shuffled (die - 1) ki
        else shuffled) = .ok G1 := hok
    clear hok
    by_cases hcase : ((BACK_RANK c).filter fun i => cellAt G.cells i = none).length ≤ ki
    · rw [if_pos hcase] at hok2
      have hne : die - 1 ≠ ki := by omega
      have hd1lt : die - 1 < shuffled.length := by omega
      have hget : (listSwap shuffled (die - 1) ki).get? (die - 1) =
          some (kingCodeOf c) := by
        rw [listSwap_get_left hne hd1lt hkilt]
        exact hkiget
      exact placed_king_mem G c G1 _ (die - 1) hlen37 hok2 (by omega) hget
    · rw [if_neg hcase] at hok2
      exact placed_king_mem G c G1 shuffled ki hlen37 hok2 (by omega) hkiget

/-- Extract the state of a successful placement outcome. -/
def okStateD (r : PlaceResult) (d : GameState) : GameState :=
  match r with
  | .ok g => g
  | _ => d

/-- Setup position for the C10 witness, part (a): four white back-rank cells
already hold knight/bishop/queen, the king is still pooled. -/
def c10aBefore : GameState :=
  ⟨((emptyCells.set 3 (some WN)).set 10 (some WB)).set 16 (some WQ),
    [WK, WR, WC, WD, WG], [], []⟩

def c10aAfter : GameState := (placePiece c10aBefore ⟨true, .setup⟩ 21 WR).getD c10aBefore

/-- Shuffle outcome for the C10 witness, part (b): the king comes out last. -/
def c10Shuffled : List PieceCode := [WN, WB, WQ, WR, WC, WD, WG, WK]

def c10bBefore : GameState := ⟨emptyCells, [WK, WN, WB, WQ, WR, WC, WD, WG], [], []⟩

def c10bAfter : GameState :=
  okStateD (placeAll c10bBefore .W (some (c10Shuffled, 1))) c10bBefore

set_option maxHeartbeats 2000000 in
/-- Witness for C10: placing the white rook on cell 21 of `c10aBefore` trims
the pool to just the king, and bulk random placement with a shuffle that left
the king out still puts the king on the board. -/
theorem claim_C10_witness :
    c10aAfter.pool .W = [kingCodeOf .W] ∧ some (kingCodeOf .W) ∈ c10bAfter.cells :=
  ⟨claim_C10.1 c10aBefore ⟨true, .setup⟩ 21 WR c10aAfter (by decide) (by decide)
      (by decide),
   claim_C10.2 c10bBefore .W c10Shuffled 1 c10bAfter (by decide) (by decide) (by decide)
      (by decide) (by decide)⟩

/-! ## Claim C3: the setup-pool/board invariant -/

/-- The invariant exactly as the spec states it: every code removed from a
color's pool appears exactly once on the board, in a back-rank cell of that
color. -/
def claimedPoolInvariant (G : GameState) (c : Color) : Prop :=
  ∀ code ∈ SETUP_POOL c, code ∉ G.pool c →
    G.cells.count (some code) = 1 ∧
    ∀ i, i < G.cells.length → cellAt G.cells i = some code → i ∈ BACK_RANK c

/-- The invariant the setup operations actually preserve: pools are duplicate
free sublists of the declared pool, pooled codes are not on the board, and a
code missing from the pool appears at most once, only in a back-rank cell of
its color (the king-reservation rule of `placePiece` discards codes without
placing them, so "exactly once" fails). -/
def corePoolInv (cells : Cells) (pool : List PieceCode) (c : Color) : Prop :=
  pool.Nodup ∧
  (∀ code ∈ pool, code ∈ SETUP_POOL c) ∧
  ∀ code ∈ SETUP_POOL c,
    (code ∈ pool → cells.count (some code) = 0) ∧
    (code ∉ pool → cells.count (some code) ≤ 1 ∧
      ∀ i, i < cells.length → cellAt cells i = some code → i ∈ BACK_RANK c)

def poolInvariant (G : GameState) (c : Color) : Prop :=
  corePoolInv G.cells (G.pool c) c

instance (G : GameState) (c : Color) : Decidable (claimedPoolInvariant G c) := by
  unfold claimedPoolInvariant
  infer_instance

instance (cells : Cells) (pool : List PieceCode) (c : Color) :
    Decidable (corePoolInv cells pool c) := by
  unfold corePoolInv
  infer_instance

instance (G : GameState) (c : Color) : Decidable (poolInvariant G c) := by
  unfold poolInvariant
  infer_instance

/-- State for the counterexample: white knight/bishop/queen already placed on
back-rank cells 3, 10, 16; white pool still holds king, rook, charger, dragon,
guardian; black has not placed anything. -/
def c3Before : GameState :=
  ⟨((emptyCells.set 3 (some WN)).set 10 (some WB)).set 16 (some WQ),
    [WK, WR, WC, WD, WG], SETUP_POOL .B, []⟩

def c3After : GameState := (placePiece c3Before ⟨true, .setup⟩ 21 WR).getD c3Before

set_option maxHeartbeats 2000000 in
/-- Counterexample to C3 as stated: placing the white rook on cell 21 leaves a
single empty white back-rank cell with the king still pooled, so `placePiece`
discards charger, dragon and guardian from the pool without placing them; the
spec's "removed appears exactly once" invariant held before the call and fails
after it (the charger is in no cell). -/
theorem claim_C3_counterexample :
    (claimedPoolInvariant c3Before .W ∧ claimedPoolInvariant c3Before .B) ∧
    placePiece c3Before ⟨true, .setup⟩ 21 WR = some c3After ∧
    ¬ claimedPoolInvariant c3After .W := by
  decide

theorem SETUP_POOL_nodup (c : Color) : (SETUP_POOL c).Nodup := by
  cases c <;> decide

theorem SETUP_POOL_color (c : Color) : ∀ code ∈ SETUP_POOL c, colorOf code = c := by
  cases c <;> decide

/-- Count of a piece code after writing into an empty (or out-of-range) cell. -/
theorem count_cells_set {l : Cells} {i0 : Nat} (v x : PieceCode)
    (hempty : cellAt l i0 = none) :
    (l.set i0 (some v)).count (some x) =
      l.count (some x) + (if i0 < l.length ∧ v = x then 1 else 0) := by
  by_cases hlt : i0 < l.length
  · have hl : l[i0] = (none : Option PieceCode) := by
      have := hempty
      rw [cellAt, List.getD_eq_getElem?_getD, List.getElem?_eq_getElem hlt] at this
      simpa using this
    rw [List.count_set _ _ _ _ hlt, hl]
    by_cases hvx : v = x
    · simp [hvx, hlt]
    · have : ((some v : Option PieceCode) == some x) = false := by
        simp [hvx]
      simp [this, hvx, hlt]
  · rw [List.set_eq_of_length_le (le_of_not_lt hlt)]
    simp [hlt]

/-- A code with zero count occupies no cell. -/
theorem count_zero_no_cell {l : Cells} {x : PieceCode}
    (h : l.count (some x) = 0) : ∀ i, cellAt l i ≠ some x := by
  intro i hcell
  have hmem := cellAt_mem hcell
  rw [List.count_eq_zero] at h
  exact h hmem

theorem setPool_pool_ne (G : GameState) (c0 c : Color) (p : List PieceCode)
    (hc : c ≠ c0) : (G.setPool c0 p).pool c = G.pool c := by
  cases c <;> cases c0 <;> first | rfl | exact absurd rfl hc

/-- Writing a pooled code of color `c0` into an empty back-rank cell and
erasing it from the pool preserves the invariant for `c0`. -/
theorem corePoolInv_place_same (cells : Cells) (pool : List PieceCode) (c0 : Color)
    (i0 : Nat) (code0 : PieceCode)
    (hBR : i0 ∈ BACK_RANK c0) (hempty : cellAt cells i0 = none) (hmem : code0 ∈ pool)
    (hinv : corePoolInv cells pool c0) :
    corePoolInv (cells.set i0 (some code0)) (pool.erase code0) c0 := by
  obtain ⟨hnd, hsub, hmain⟩ := hinv
  refine ⟨hnd.erase code0, fun code hc => hsub code (List.mem_of_mem_erase hc), ?_⟩
  intro code hcSP
  obtain ⟨hin, hout⟩ := hmain code hcSP
  constructor
  · intro hcerase
    have hcpool : code ∈ pool := List.mem_of_mem_erase hcerase
    have hne : code ≠ code0 := (hnd.mem_erase_iff.1 hcerase).1
    rw [count_cells_set code0 code hempty, hin hcpool]
    have : ¬ (i0 < cells.length ∧ code0 = code) := fun h => hne h.2.symm
    simp [this]
  · intro hnotin
    by_cases hcode : code = code0
    · subst hcode
      have h0 : cells.count (some code) = 0 := hin hmem
      rw [count_cells_set code code hempty, h0]
      constructor
      · split <;> simp
      · intro i hi hcell
        rw [List.length_set] at hi
        by_cases hii : i = i0
        · subst hii; exact hBR
        · rw [cellAt_set_ne _ (fun he => hii he.symm)] at hcell
          exact absurd hcell (count_zero_no_cell h0 i)
    · have hnotpool : code ∉ pool := fun hcp =>
        hnotin ((List.mem_erase_of_ne hcode).2 hcp)
      obtain ⟨hle, hpos⟩ := hout hnotpool
      rw [count_cells_set code0 code hempty]
      have hcond : ¬ (i0 < cells.length ∧ code0 = code) := fun h => hcode h.2.symm
      constructor
      · simp [hcond]; exact hle
      · intro i hi hcell
        rw [List.length_set] at hi
        by_cases hii : i = i0
        · subst hii
          rw [cellAt_set_self _ hi] at hcell
          exact absurd (Option.some.inj hcell).symm hcode
        · rw [cellAt_set_ne _ (fun he => hii he.symm)] at hcell
          exact hpos i hi hcell

/-- Writing a code of another color into an empty cell preserves the
invariant for `c`. -/
theorem corePoolInv_place_other (cells : Cells) (pool : List PieceCode) (c : Color)
    (i0 : Nat) (code0 : PieceCode)
    (hc : colorOf code0 ≠ c) (hempty : cellAt cells i0 = none)
    (hinv : corePoolInv cells pool c) :
    corePoolInv (cells.set i0 (some code0)) pool c := by
  obtain ⟨hnd, hsub, hmain⟩ := hinv
  refine ⟨hnd, hsub, ?_⟩
  intro code hcSP
  have hnecode : code0 ≠ code := fun he => hc (he ▸ SETUP_POOL_color c code hcSP)
  obtain ⟨hin, hout⟩ := hmain code hcSP
  have hcond : ¬ (i0 < cells.length ∧ code0 = code) := fun h => hnecode h.2
  constructor
  · intro hp
    rw [count_cells_set code0 code hempty, hin hp]
    simp [hcond]
  · intro hnp
    obtain ⟨hle, hpos⟩ := hout hnp
    rw [count_cells_set code0 code hempty]
    constructor
    · simp [hcond]; exact hle
    · intro i hi hcell
      rw [List.length_set] at hi
      by_cases hii : i = i0
      · subst hii
        rw [cellAt_set_self _ hi] at hcell
        exact absurd (Option.some.inj hcell) hnecode
      · rw [cellAt_set_ne _ (fun he => hii he.symm)] at hcell
        exact hpos i hi hcell

/-- The king-reservation trim preserves the (amended) invariant. -/
theorem corePoolInv_trim (cells : Cells) (pool : List PieceCode) (c0 : Color)
    (hking : kingCodeOf c0 ∈ pool) (hinv : corePoolInv cells pool c0) :
    corePoolInv cells [kingCodeOf c0] c0 := by
  obtain ⟨hnd, hsub, hmain⟩ := hinv
  refine ⟨List.nodup_singleton _, ?_, ?_⟩
  · intro code hc
    rw [List.mem_singleton] at hc
    subst hc
    exact hsub _ hking
  · intro code hcSP
    obtain ⟨hin, hout⟩ := hmain code hcSP
    constructor
    · intro hc
      rw [List.mem_singleton] at hc
      subst hc
      exact hin hking
    · intro hnotin
      by_cases hp : code ∈ pool
      · have h0 := hin hp
        exact ⟨by omega, fun i hi hcell => absurd hcell (count_zero_no_cell h0 i)⟩
      · exact hout hp

/-- The destructuring swap of the randomised pool is a permutation. -/
theorem listSwap_perm (l : List PieceCode) (i j : Nat) : (listSwap l i j).Perm l := by
  unfold listSwap
  cases hgi : l.get? i with
  | none => exact List.Perm.refl l
  | some a =>
    cases hgj : l.get? j with
    | none => exact List.Perm.refl l
    | some b =>
      obtain ⟨hi, hgeti⟩ := List.get?_eq_some.1 hgi
      obtain ⟨hj, hgetj⟩ := List.get?_eq_some.1 hgj
      have hai : l[i] = a := by simpa [List.get_eq_getElem] using hgeti
      have hbj : l[j] = b := by simpa [List.get_eq_getElem] using hgetj
      rw [List.perm_iff_count]
      intro x
      have hjlen : j < (l.set i b).length := by rw [List.length_set]; exact hj
      have hL1j : (l.set i b)[j] = b := by
        by_cases hij : i = j
        · subst hij
          rw [List.getElem_set_self]
        · rw [List.getElem_set_ne hij]
          exact hbj
      rw [List.count_set a x _ j hjlen, List.count_set b x l i hi, hL1j, hai]
      have hbound : (if (a == x) = true then 1 else 0) ≤ l.count x := by
        by_cases hax : a = x
        · subst hax
          have : a ∈ l := hai ▸ List.getElem_mem hi
          simpa using List.count_pos_iff.2 this
        · simp [hax]
      have hAx : (if (a == x) = true then 1 else 0) = (if a = x then 1 else 0) := by
        by_cases h : a = x <;> simp [h]
      have hBx : (if (b == x) = true then 1 else 0) = (if b = x then 1 else 0) := by
        by_cases h : b = x <;> simp [h]
      rw [hAx] at hbound ⊢
      rw [hBx]
      by_cases hax : a = x <;> by_cases hbx : b = x <;>
        simp only [hax, hbx, if_true, reduceIte, if_false] at hbound ⊢ <;> omega

/-- The fill loop preserves the (amended) pool invariant of both colors,
provided its queue is a duplicate-free selection of the acting color's pool
and its empty-cell list consists of distinct empty back-rank cells. -/
theorem placeAllLoop_invariant (c0 : Color) :
    ∀ (empties : List Nat) (queue : List PieceCode) (G G1 : GameState),
      placeAllLoop G c0 empties queue = .ok G1 →
      (∀ i ∈ empties, i ∈ BACK_RANK c0) →
      (∀ i ∈ empties, cellAt G.cells i = none) →
      empties.Nodup →
      queue.Nodup →
      (∀ code ∈ queue, code ∈ G.pool c0) →
      (∀ c, poolInvariant G c) →
      ∀ c, poolInvariant G1 c := by
  intro empties
  induction empties with
  | nil =>
    intro queue G G1 h _ _ _ _ _ hinv
    cases h
    exact hinv
  | cons i0 rest ih =>
    intro queue G G1 h hBR hempty hnd hqnd hqsub hinv
    cases queue with
    | nil => cases h
    | cons code0 qrest =>
      simp only [placeAllLoop] at h
      have hi0ne : i0 ∉ rest := (List.nodup_cons.1 hnd).1
      have hc0ne : code0 ∉ qrest := (List.nodup_cons.1 hqnd).1
      have hpool3 :
          ((logMove (G.setCells (G.cells.set i0 (some code0))) c0 none code0 i0 none
              false).setPool c0
              (((logMove (G.setCells (G.cells.set i0 (some code0))) c0 none code0 i0 none
                false).pool c0).erase code0)).pool c0 = (G.pool c0).erase code0 := by
        rw [setPool_pool, logMove_pool, setCells_pool]
      refine ih qrest _ G1 h ?_ ?_ (List.nodup_cons.1 hnd).2 (List.nodup_cons.1 hqnd).2
        ?_ ?_
      · intro i hi
        exact hBR i (List.mem_cons_of_mem _ hi)
      · intro i hi
        rw [loop_step_cells]
        rw [cellAt_set_ne _ (fun he => hi0ne (by rw [he]; exact hi))]
        exact hempty i (List.mem_cons_of_mem _ hi)
      · intro code hcq
        rw [hpool3]
        have hne : code ≠ code0 := fun he => hc0ne (he ▸ hcq)
        exact (List.mem_erase_of_ne hne).2 (hqsub code (List.mem_cons_of_mem _ hcq))
      · intro c
        unfold poolInvariant
        rw [loop_step_cells]
        by_cases hc : c = c0
        · subst hc
          rw [hpool3]
          exact corePoolInv_place_same G.cells (G.pool c) c i0 code0
            (hBR i0 (List.mem_cons_self _ _)) (hempty i0 (List.mem_cons_self _ _))
            (hqsub code0 (List.mem_cons_self _ _)) (hinv c)
        · rw [setPool_pool_ne _ _ _ _ hc, logMove_pool, setCells_pool]
          have hcol0 : colorOf code0 = c0 :=
            SETUP_POOL_color c0 code0
              ((hinv c0).2.1 code0 (hqsub code0 (List.mem_cons_self _ _)))
          exact corePoolInv_place_other G.cells (G.pool c) c i0 code0
            (fun he => hc (hcol0.symm.trans he).symm)
            (hempty i0 (List.mem_cons_self _ _)) (hinv c)

set_option maxHeartbeats 1000000 in
/-- Claim C3, amended: every setup operation preserves the invariant that a
color's pool is a duplicate-free selection of its declared codes, pooled codes
are absent from the board, and a code no longer pooled occupies at most one
cell, always a back-rank cell of its color.  (The original "exactly once"
claim fails: the king-reservation rule discards codes without placing them,
see `claim_C3_counterexample`.)  The random variant is quantified over the
shuffle outcome, assumed to be a permutation of the pool as `random.Shuffle`
guarantees. -/
theorem claim_C3 :
    (∀ (G : GameState) (ctx : Ctx) (toIndex : Nat) (code : PieceCode) (G1 : GameState),
      placePiece G ctx toIndex code = some G1 →
      (∀ c, poolInvariant G c) → ∀ c, poolInvariant G1 c) ∧
    (∀ (G : GameState) (c0 : Color) (rand : Option (List PieceCode × Nat))
        (G1 : GameState),
      (match rand with
       | some (sh, _) => sh.Perm (G.pool c0)
       | none => True) →
      placeAll G c0 rand = .ok G1 →
      (∀ c, poolInvariant G c) → ∀ c, poolInvariant G1 c) := by
  constructor
  · intro G ctx toIndex code G1 hplace hinvAll
    by_cases h1 : isBackRank (colorToMove ctx) toIndex = true
    swap
    · simp [placePiece, h1] at hplace
    by_cases h2 : cellAt G.cells toIndex = none
    swap
    · simp [placePiece, h1, h2] at hplace
    by_cases h3 : code ∈ G.pool (colorToMove ctx)
    swap
    · simp [placePiece, h1, h2, h3] at hplace
    have h3c : (G.pool (colorToMove ctx)).contains code = true := by simpa using h3
    by_cases h4 : colorOf code = colorToMove ctx
    swap
    · simp [placePiece, h1, h2, h3c, h4] at hplace
    simp only [placePiece, h1, h2, h3c, h4, not_true, not_false_eq_true, ne_eq,
      if_neg, if_pos, ite_false, ite_true, reduceIte, Option.some.injEq] at hplace
    simp only [setPool_cells, logMove_cells, setCells_cells, setPool_pool, logMove_pool,
      setCells_pool] at hplace
    have hBRmem : toIndex ∈ BACK_RANK (colorToMove ctx) := by
      simpa [isBackRank] using h1
    have hinv3 : ∀ c, poolInvariant
        ((logMove (G.setCells (G.cells.set toIndex (some code))) (colorToMove ctx) none
            code toIndex none false).setPool (colorToMove ctx)
            ((G.pool (colorToMove ctx)).erase code)) c := by
      intro c
      unfold poolInvariant
      rw [setPool_cells, logMove_cells, setCells_cells]
      by_cases hc : c = colorToMove ctx
      · subst hc
        rw [setPool_pool]
        exact corePoolInv_place_same G.cells (G.pool _) _ toIndex code hBRmem h2 h3
          (hinvAll _)
      · rw [setPool_pool_ne _ _ _ _ hc, logMove_pool, setCells_pool]
        exact corePoolInv_place_other G.cells (G.pool c) c toIndex code
          (fun he => hc (h4.symm.trans he).symm) h2 (hinvAll c)
    rw [← hplace]
    intro c
    by_cases hcond : (((BACK_RANK (colorToMove ctx)).filter fun i =>
        cellAt (G.cells.set toIndex (some code)) i = none).length = 1 ∧
        ((G.pool (colorToMove ctx)).erase code).contains
          (kingCodeOf (colorToMove ctx)) = true)
    · rw [if_pos hcond]
      unfold poolInvariant
      by_cases hc : c = colorToMove ctx
      · subst hc
        rw [setPool_cells, setPool_pool, setPool_cells, logMove_cells, setCells_cells]
        have h5 := hinv3 (colorToMove ctx)
        unfold poolInvariant at h5
        rw [setPool_cells, setPool_pool, logMove_cells, setCells_cells] at h5
        refine corePoolInv_trim _ _ _ ?_ h5
        simpa using hcond.2
      · rw [setPool_cells, setPool_pool_ne _ _ _ _ hc, setPool_cells,
          setPool_pool_ne _ _ _ _ hc]
        have h5 := hinv3 c
        unfold poolInvariant at h5
        rwa [setPool_cells, setPool_pool_ne _ _ _ _ hc] at h5
    · rw [if_neg hcond]
      exact hinv3 c
  · intro G c0 rand G1 hperm hok hinvAll
    simp only [placeAll] at hok
    by_cases hn : ((BACK_RANK c0).filter fun i => cellAt G.cells i = none).length = 0
    · rw [if_pos hn] at hok
      cases hok
    rw [if_neg hn] at hok
    have hBRs : ∀ i ∈ (BACK_RANK c0).filter fun i => cellAt G.cells i = none,
        i ∈ BACK_RANK c0 := fun i hi => List.mem_of_mem_filter hi
    have hempties : ∀ i ∈ (BACK_RANK c0).filter fun i => cellAt G.cells i = none,
        cellAt G.cells i = none := by
      intro i hi
      have := (List.mem_filter.1 hi).2
      simpa using this
    have hndE : ((BACK_RANK c0).filter fun i => cellAt G.cells i = none).Nodup :=
      (BACK_RANK_nodup c0).filter _
    have hpoolnodup : (G.pool c0).Nodup :=
      (show corePoolInv G.cells (G.pool c0) c0 from hinvAll c0).1
    cases rand with
    | none =>
      refine placeAllLoop_invariant c0 _ _ G G1 hok hBRs hempties hndE ?_ ?_ hinvAll
      · exact (SETUP_POOL_nodup c0).filter _
      · intro code hcq
        have := (List.mem_filter.1 hcq).2
        simpa using this
    | some sd =>
      obtain ⟨sh, die⟩ := sd
      have hperm2 : sh.Perm (G.pool c0) := hperm
      have hok0 : placeAllLoop G c0
          ((BACK_RANK c0).filter fun i => cellAt G.cells i = none)
          (match sh.indexOf? (kingCodeOf c0) with
           | some kingIndex =>
             if ((BACK_RANK c0).filter fun i => cellAt G.cells i = none).length ≤ kingIndex
             then listSwap sh (die - 1) kingIndex
             else sh
           | none => sh) = .ok G1 := hok
      clear hok
      cases hki : sh.indexOf? (kingCodeOf c0) with
      | none =>
        rw [hki] at hok0
        have hok2 : placeAllLoop G c0
            ((BACK_RANK c0).filter fun i => cellAt G.cells i = none) sh = .ok G1 := hok0
        refine placeAllLoop_invariant c0 _ _ G G1 hok2 hBRs hempties hndE ?_ ?_ hinvAll
        · exact hperm2.nodup_iff.2 hpoolnodup
        · intro code hcq
          exact hperm2.mem_iff.1 hcq
      | some ki =>
        rw [hki] at hok0
        have hok2 : placeAllLoop G c0
            ((BACK_RANK c0).filter fun i => cellAt G.cells i = none)
            (if ((BACK_RANK c0).filter fun i => cellAt G.cells i = none).length ≤ ki
             then listSwap sh (die - 1) ki else sh) = .ok G1 := hok0
        by_cases hcase : ((BACK_RANK c0).filter fun i =>
            cellAt G.cells i = none).length ≤ ki
        · rw [if_pos hcase] at hok2
          have hswapperm : (listSwap sh (die - 1) ki).Perm (G.pool c0) :=
            (listSwap_perm sh (die - 1) ki).trans hperm2
          refine placeAllLoop_invariant c0 _ _ G G1 hok2 hBRs hempties hndE ?_ ?_ hinvAll
          · exact hswapperm.nodup_iff.2 hpoolnodup
          · intro code hcq
            exact hswapperm.mem_iff.1 hcq
        · rw [if_neg hcase] at hok2
          refine placeAllLoop_invariant c0 _ _ G G1 hok2 hBRs hempties hndE ?_ ?_ hinvAll
          · exact hperm2.nodup_iff.2 hpoolnodup
          · intro code hcq
            exact hperm2.mem_iff.1 hcq

/-- The initial Game Position built by source `setup()`: pawns pre-placed,
full non-pawn pools, empty log. -/
def setupG : GameState :=
  ⟨(PAWN_START .B).foldl (fun cs n => cs.set n (some BP))
      ((PAWN_START .W).foldl (fun cs n => cs.set n (some WP))
        (List.replicate 37 none)),
    SETUP_POOL .W, SETUP_POOL .B, []⟩

def c3wAfter : GameState := (placePiece setupG ⟨true, .setup⟩ 3 WR).getD setupG

set_option maxHeartbeats 2000000 in
/-- Witness for C3 (amended): the initial position satisfies the invariant and
placing the white rook on back-rank cell 3 preserves it. -/
theorem claim_C3_witness : poolInvariant c3wAfter .W :=
  claim_C3.1 setupG ⟨true, .setup⟩ 3 WR c3wAfter (by decide)
    (fun c => by cases c <;> decide) .W

/-! ## Claim C9: characterization of the sliding primitive -/

theorem step_unpack {i d s t : Nat} (h : stepInDirection i d s = some t) :
    ∃ ci dq dr, GRID.get? i = some ci ∧ AXIAL_DIRS.get? d = some (dq, dr) ∧
      getIndexOf (ci.q + dq * (s : Int)) (ci.r + dr * (s : Int)) = some t := by
  unfold stepInDirection at h
  cases hg : GRID.get? i with
  | none => rw [hg] at h; cases h
  | some ci =>
    cases ha : AXIAL_DIRS.get? d with
    | none => rw [hg, ha] at h; cases h
    | some dv =>
      obtain ⟨dq, dr⟩ := dv
      rw [hg, ha] at h
      exact ⟨ci, dq, dr, rfl, rfl, h⟩

theorem step_shift {i d m : Nat} (hm : stepInDirection i d 1 = some m) (k : Nat) :
    stepInDirection m d k = stepInDirection i d (k + 1) := by
  obtain ⟨ci, dq, dr, hgi, hgd, hidx⟩ := step_unpack hm
  obtain ⟨hmlt, hmco⟩ := getIndexOf_sound hidx
  have hgm : GRID.get? m = some ⟨ci.q + dq * ((1 : Nat) : Int), ci.r + dr * ((1 : Nat) : Int)⟩ := by
    rw [List.get?_eq_getElem?, List.getElem?_eq_getElem hmlt]
    rw [← List.getD_eq_getElem GRID ⟨0, 0⟩ hmlt, hmco]
  unfold stepInDirection
  rw [hgm, hgd, hgi]
  show getIndexOf (ci.q + dq * ((1 : Nat) : Int) + dq * (k : Int))
      (ci.r + dr * ((1 : Nat) : Int) + dr * (k : Int)) =
    getIndexOf (ci.q + dq * ((k + 1 : Nat) : Int)) (ci.r + dr * ((k + 1 : Nat) : Int))
  congr 1 <;> push_cast <;> ring

theorem AXIAL_DIRS_nonzero : ∀ dv ∈ AXIAL_DIRS, dv ≠ ((0 : Int), (0 : Int)) := by
  decide

/-- Positions reached after distinct numbers of steps in one direction are
distinct board cells, so a walk that stays on the board for k steps has
k ≤ 37. -/
theorem rhs_k_bound {cells : Cells} {cur d j k : Nat}
    (hstepk : stepInDirection cur d k = some j)
    (hmids : ∀ m, 1 ≤ m → m < k →
      ∃ im, stepInDirection cur d m = some im ∧ cellAt cells im = none) :
    k ≤ 37 := by
  obtain ⟨ci, dq, dr, hgi, hgd, -⟩ := step_unpack hstepk
  have hdv : (dq, dr) ≠ ((0 : Int), (0 : Int)) := by
    obtain ⟨hlt, hget⟩ := List.get?_eq_some.1 hgd
    exact AXIAL_DIRS_nonzero _ (hget ▸ List.get_mem _ _ hlt)
  have hsome : ∀ m ∈ Finset.Icc 1 k, ∃ im, stepInDirection cur d m = some im := by
    intro m hm
    rw [Finset.mem_Icc] at hm
    rcases eq_or_lt_of_le hm.2 with he | hlt
    · exact ⟨j, he ▸ hstepk⟩
    · obtain ⟨im, him, -⟩ := hmids m hm.1 hlt
      exact ⟨im, him⟩
  have hco : ∀ m im, stepInDirection cur d m = some im →
      im < 37 ∧ GRID.getD im ⟨0, 0⟩ = ⟨ci.q + dq * m, ci.r + dr * m⟩ := by
    intro m im him
    obtain ⟨ci2, dq2, dr2, hgi2, hgd2, hidx2⟩ := step_unpack him
    rw [hgi] at hgi2
    rw [hgd] at hgd2
    cases hgi2
    cases hgd2
    obtain ⟨hlt, hcoeq⟩ := getIndexOf_sound hidx2
    exact ⟨GRID_length_eq ▸ hlt, hcoeq⟩
  have hinj : ∀ m ∈ Finset.Icc 1 k, ∀ n ∈ Finset.Icc 1 k,
      (stepInDirection cur d m).getD 0 = (stepInDirection cur d n).getD 0 → m = n := by
    intro m hm n hn heq
    obtain ⟨im, him⟩ := hsome m hm
    obtain ⟨iN, hiN⟩ := hsome n hn
    rw [him, hiN] at heq
    simp only [Option.getD_some] at heq
    subst heq
    obtain ⟨-, hm2⟩ := hco m im him
    obtain ⟨-, hn2⟩ := hco n im hiN
    rw [hm2] at hn2
    have hq : ci.q + dq * m = ci.q + dq * n := congrArg Axial.q hn2
    have hr : ci.r + dr * m = ci.r + dr * n := congrArg Axial.r hn2
    rcases (by
      by_contra hq0
      push_neg at hq0
      exact hdv (Prod.ext hq0.1 hq0.2) : dq ≠ 0 ∨ dr ≠ 0) with hd0 | hd0
    · have : (m : Int) = n := mul_left_cancel₀ hd0 (by omega)
      exact_mod_cast this
    · have : (m : Int) = n := mul_left_cancel₀ hd0 (by omega)
      exact_mod_cast this
  have hmaps : ∀ m ∈ Finset.Icc 1 k,
      (stepInDirection cur d m).getD 0 ∈ Finset.range 37 := by
    intro m hm
    obtain ⟨im, him⟩ := hsome m hm
    rw [him]
    simp only [Option.getD_some, Finset.mem_range]
    exact (hco m im him).1
  have hcard := Finset.card_le_card_of_injOn _ hmaps hinj
  simpa [Nat.Icc_eq_range', Finset.card_range] using hcard

/-- Fuel-indexed characterization of the while-loop of `slide`: a cell is
reached within `fuel` iterations exactly when some step count `k ≥ 1` lands on
it with every strictly earlier step landing on an on-board empty cell, and the
landing cell itself empty or enemy-occupied. -/
theorem slideGo_iff (cells : Cells) (pc : Option PieceCode) (d : Nat) :
    ∀ (fuel cur j : Nat),
      j ∈ slideGo cells pc cur d fuel ↔
        ∃ k, 1 ≤ k ∧ k ≤ fuel ∧ stepInDirection cur d k = some j ∧
          (∀ m, 1 ≤ m → m < k → ∃ im, stepInDirection cur d m = some im ∧
            cellAt cells im = none) ∧
          (cellAt cells j = none ∨ isEnemy pc (cellAt cells j) = true) := by
  intro fuel
  induction fuel with
  | zero =>
    intro cur j
    simp only [slideGo, List.not_mem_nil, false_iff]
    rintro ⟨k, h1, h0, -⟩
    omega
  | succ fuel ih =>
    intro cur j
    cases hstep : stepInDirection cur d 1 with
    | none =>
      simp only [slideGo, hstep, List.not_mem_nil, false_iff]
      rintro ⟨k, h1, -, hstepk, hmids, -⟩
      rcases eq_or_lt_of_le h1 with he | hgt
      · rw [← he] at hstepk
        rw [hstep] at hstepk
        cases hstepk
      · obtain ⟨im, him, -⟩ := hmids 1 le_rfl hgt
        rw [hstep] at him
        cases him
    | some next =>
      cases hcell : cellAt cells next with
      | none =>
        simp only [slideGo, hstep, hcell, List.mem_cons]
        constructor
        · rintro (rfl | hrec)
          · exact ⟨1, le_rfl, by omega, hstep, fun m hm1 hm2 => absurd hm2 (by omega),
              Or.inl hcell⟩
          · obtain ⟨k, h1, hkf, hstepk, hmids, hlast⟩ := (ih next j).1 hrec
            refine ⟨k + 1, by omega, by omega, ?_, ?_, hlast⟩
            · rw [← step_shift hstep k]
              exact hstepk
            · intro m hm1 hm2
              rcases eq_or_lt_of_le hm1 with he | hgt
              · refine ⟨next, ?_, hcell⟩
                rw [← he]
                exact hstep
              · obtain ⟨im, him, hime⟩ := hmids (m - 1) (by omega) (by omega)
                refine ⟨im, ?_, hime⟩
                have := step_shift hstep (m - 1)
                rw [him] at this
                have hm : m - 1 + 1 = m := by omega
                rw [hm] at this
                exact this.symm
        · rintro ⟨k, h1, hkf, hstepk, hmids, hlast⟩
          rcases eq_or_lt_of_le h1 with he | hgt
          · rw [← he, hstep] at hstepk
            exact Or.inl (Option.some.inj hstepk).symm
          · refine Or.inr ((ih next j).2 ⟨k - 1, by omega, by omega, ?_, ?_, hlast⟩)
            · have := step_shift hstep (k - 1)
              have hk : k - 1 + 1 = k := by omega
              rw [hk] at this
              rw [this]
              exact hstepk
            · intro m hm1 hm2
              obtain ⟨im, him, hime⟩ := hmids (m + 1) (by omega) (by omega)
              refine ⟨im, ?_, hime⟩
              rw [step_shift hstep m]
              exact him
      | some tc =>
        by_cases henemy : isEnemy pc (some tc) = true
        · simp only [slideGo, hstep, hcell, henemy, if_pos, List.mem_singleton]
          constructor
          · rintro rfl
            exact ⟨1, le_rfl, by omega, hstep, fun m hm1 hm2 => absurd hm2 (by omega),
              Or.inr (hcell ▸ henemy)⟩
          · rintro ⟨k, h1, -, hstepk, hmids, -⟩
            rcases eq_or_lt_of_le h1 with he | hgt
            · rw [← he, hstep] at hstepk
              exact (Option.some.inj hstepk).symm
            · obtain ⟨im, him, hime⟩ := hmids 1 le_rfl hgt
              rw [hstep] at him
              cases him
              rw [hcell] at hime
              cases hime
        · simp only [slideGo, hstep, hcell, henemy, Bool.false_eq_true, if_false,
            reduceIte, List.not_mem_nil, false_iff]
          rintro ⟨k, h1, -, hstepk, hmids, hlast⟩
          rcases eq_or_lt_of_le h1 with he | hgt
          · rw [← he, hstep] at hstepk
            cases hstepk
            rcases hlast with hl | hl
            · rw [hcell] at hl
              cases hl
            · rw [hcell] at hl
              exact henemy hl
          · obtain ⟨im, him, hime⟩ := hmids 1 le_rfl hgt
            rw [hstep] at him
            cases him
            rw [hcell] at hime
            cases hime

/-- Claim C9: for a board, a start cell holding a piece and a direction, the
sliding primitive returns exactly the cells reachable by some number k ≥ 1 of
steps in that direction such that every strictly earlier step lands on an
on-board empty cell and the destination is empty or holds an enemy of the
sliding piece — i.e. every empty cell up to the first occupant or the board
edge, plus the first occupant exactly when it is an enemy; friendly blockers
and everything beyond the first occupant are excluded. -/
theorem claim_C9 (cells : Cells) (fromIdx d : Nat) (pc : PieceCode)
    (hfrom : cellAt cells fromIdx = some pc) (j : Nat) :
    j ∈ slide cells fromIdx d ↔
      ∃ k, 1 ≤ k ∧ stepInDirection fromIdx d k = some j ∧
        (∀ m, 1 ≤ m → m < k → ∃ im, stepInDirection fromIdx d m = some im ∧
          cellAt cells im = none) ∧
        (cellAt cells j = none ∨ isEnemy (some pc) (cellAt cells j) = true) := by
  unfold slide
  rw [hfrom, slideGo_iff]
  constructor
  · rintro ⟨k, h1, -, hstepk, hmids, hlast⟩
    exact ⟨k, h1, hstepk, hmids, hlast⟩
  · rintro ⟨k, h1, hstepk, hmids, hlast⟩
    exact ⟨k, h1, rhs_k_bound hstepk hmids, hstepk, hmids, hlast⟩

/-- Board for the C9 witness: a white rook on the center, an enemy pawn two
steps north, the cell between them empty. -/
def c9Cells : Cells := (emptyCells.set 18 (some WR)).set 20 (some BP)

/-- Witness for C9: the enemy-occupied cell 20 two steps north of the rook is
in the rook's ray from cell 18. -/
theorem claim_C9_witness : 20 ∈ slide c9Cells 18 0 :=
  (claim_C9 c9Cells 18 0 WR (by decide) 20).mpr
    ⟨2, by decide, by decide,
      fun m hm1 hm2 => by
        have hm : m = 1 := by omega
        subst hm
        exact ⟨19, by decide, by decide⟩,
      by decide⟩
